import Mathlib

/-!
Verification development for the Human Text Editor (HTE) typing-simulation
engine (`src/human_editor.py`).

Texts are modelled as `List Char`; tokens as `List Char` as well.  The
diff engine of the program calls CPython's `difflib.SequenceMatcher` with
`isjunk = None`; the matcher is embedded below faithfully to the CPython
implementation (`Lib/difflib.py`), specialised to `isjunk = None` (so the
junk set `bjunk` is empty and the two junk-extension loops of
`find_longest_match` never execute; they are therefore omitted).  The
"autojunk" popularity filter on `b2j` (active when `len(b) >= 200`) is
embedded.  CPython collects matching blocks from a work queue and then
sorts them; because the blocks found in the lower-left and upper-right
sub-rectangles are strictly separated in both coordinates, the sorted
list equals the in-order list produced by the structural recursion used
here, which recurses on the lower rectangle, emits the block, then
recurses on the upper rectangle.  Recursions whose Python counterpart is
a `while` loop are given an explicit fuel argument (always called with
enough fuel) so that every definition reduces in the kernel.
-/

namespace HTE

/-- Python's regex `\s` class, restricted to ASCII (the program's texts are
ordinary text; the universal theorems below do not depend on the exact
character class). -/
def pyIsSpace (c : Char) : Bool :=
  c = ' ' || c = '\t' || c = '\n' || c = '\r' || c = '\x0b' || c = '\x0c'

/-- `_word_tokenize` (human_editor.py:215): `re.findall(r'\S+|\s+', text)`,
i.e. the lossless split of the text into maximal runs of non-whitespace
and whitespace characters, in order. -/
def wordTokenize : List Char → List (List Char)
  | [] => []
  | c :: cs =>
    match wordTokenize cs with
    | [] => [[c]]
    | run :: runs =>
      match run with
      | [] => [[c]]
      | d :: _ =>
        if pyIsSpace c = pyIsSpace d then (c :: run) :: runs
        else [c] :: run :: runs

/-- The kind of a diff operation (`DiffOp.kind`). -/
inductive DiffKind where
  | equal
  | insert
  | delete
  | replace
deriving DecidableEq, Repr

/-- `DiffOp` (human_editor.py:207): a single diff operation. -/
structure DiffOp where
  kind : DiffKind
  old : List Char := []
  new : List Char := []
deriving DecidableEq, Repr

/-- A matching block `(a, b, size)` of `difflib.SequenceMatcher`. -/
structure MBlock where
  a : Nat
  b : Nat
  size : Nat
deriving DecidableEq, Repr

/-- Running best match of `find_longest_match`. -/
structure Best where
  i : Nat
  j : Nat
  size : Nat
deriving DecidableEq, Repr

/-- Number of occurrences of `x` in `b` (`len(b2j entry)` in
`SequenceMatcher.__chain_b`). -/
def countOcc [DecidableEq α] (b : List α) (x : α) : Nat :=
  (b.filter (fun y => y = x)).length

/-- The autojunk popularity test of `SequenceMatcher.__chain_b`: when
`len(b) >= 200`, elements occurring more than `len(b) // 100 + 1` times
are dropped from `b2j`. -/
def isPopular [DecidableEq α] (b : List α) (x : α) : Bool :=
  decide (200 ≤ b.length) && decide (b.length / 100 + 1 < countOcc b x)

/-- `b2j` of `SequenceMatcher.__chain_b` with `isjunk = None`: the sorted
list of indices `j` with `b[j] = x`, empty for autojunk-popular elements. -/
def b2j [DecidableEq α] (b : List α) (x : α) : List Nat :=
  if isPopular b x then []
  else (List.range b.length).filter (fun j => b[j]? = some x)

/-- Inner loop of `find_longest_match` over the candidate positions
`b2j[a[i]]` for one row `i`: builds the new `j2len` row and updates the
best match; `continue` on `j < blo`, `break` on `j >= bhi`. -/
def flmInner (blo bhi i : Nat) (j2len : Nat → Nat) :
    List Nat → (Nat → Nat) → Best → ((Nat → Nat) × Best)
  | [], newRow, best => (newRow, best)
  | j :: js, newRow, best =>
    if j < blo then flmInner blo bhi i j2len js newRow best
    else if bhi ≤ j then (newRow, best)
    else
      let k := (if j = 0 then 0 else j2len (j - 1)) + 1
      let newRow' := fun j' => if j' = j then k else newRow j'
      let best' := if best.size < k then Best.mk (i + 1 - k) (j + 1 - k) k else best
      flmInner blo bhi i j2len js newRow' best'

/-- Outer loop of `find_longest_match` over rows `i ∈ [alo, ahi)`. -/
def flmOuter [DecidableEq α] (a b : List α) (blo bhi : Nat) :
    List Nat → (Nat → Nat) → Best → Best
  | [], _, best => best
  | i :: is, j2len, best =>
    let js := match a[i]? with
      | some x => b2j b x
      | none => []
    let (newRow, best') := flmInner blo bhi i j2len js (fun _ => 0) best
    flmOuter a b blo bhi is newRow best'

/-- Backward extension loop of `find_longest_match` (`isjunk = None`, so
the junk test never blocks the extension).  `fuel` bounds the iteration
count; it is always called with `fuel = best.i`. -/
def flmExtendBack [DecidableEq α] (a b : List α) (alo blo : Nat) :
    Nat → Best → Best
  | 0, best => best
  | fuel + 1, best =>
    if alo < best.i ∧ blo < best.j ∧
        (a[best.i - 1]? = b[best.j - 1]? ∧ (a[best.i - 1]?).isSome) then
      flmExtendBack a b alo blo fuel (Best.mk (best.i - 1) (best.j - 1) (best.size + 1))
    else best

/-- Forward extension loop of `find_longest_match` (`isjunk = None`). -/
def flmExtendFwd [DecidableEq α] (a b : List α) (ahi bhi : Nat) :
    Nat → Best → Best
  | 0, best => best
  | fuel + 1, best =>
    if best.i + best.size < ahi ∧ best.j + best.size < bhi ∧
        (a[best.i + best.size]? = b[best.j + best.size]? ∧
          (a[best.i + best.size]?).isSome) then
      flmExtendFwd a b ahi bhi fuel (Best.mk best.i best.j (best.size + 1))
    else best

/-- `SequenceMatcher.find_longest_match(alo, ahi, blo, bhi)` with
`isjunk = None`. -/
def findLongestMatch [DecidableEq α] (a b : List α) (alo ahi blo bhi : Nat) : Best :=
  let best0 := Best.mk alo blo 0
  let best1 := flmOuter a b blo bhi (List.range' alo (ahi - alo)) (fun _ => 0) best0
  let best2 := flmExtendBack a b alo blo best1.i best1
  flmExtendFwd a b ahi bhi ahi best2

/-- The divide-and-conquer of `get_matching_blocks`, producing the blocks
in their final sorted order (see the module comment).  `fuel` bounds the
recursion depth; `ahi - alo` strictly decreases at each call, so
`fuel = ahi` always suffices. -/
def matchingBlocksRec [DecidableEq α] (a b : List α) :
    Nat → Nat → Nat → Nat → Nat → List MBlock
  | 0, _, _, _, _ => []
  | fuel + 1, alo, ahi, blo, bhi =>
    let m := findLongestMatch a b alo ahi blo bhi
    if m.size = 0 then []
    else
      (if alo < m.i ∧ blo < m.j then matchingBlocksRec a b fuel alo m.i blo m.j else [])
        ++ [MBlock.mk m.i m.j m.size]
        ++ (if m.i + m.size < ahi ∧ m.j + m.size < bhi then
              matchingBlocksRec a b fuel (m.i + m.size) ahi (m.j + m.size) bhi
            else [])

/-- The adjacent-block merge at the end of `get_matching_blocks`: runs of
blocks with `i1 + k1 == i2 and j1 + k1 == j2` are coalesced. -/
def mergeBlocks : MBlock → List MBlock → List MBlock
  | cur, [] => if cur.size ≠ 0 then [cur] else []
  | cur, blk :: bs =>
    if cur.a + cur.size = blk.a ∧ cur.b + cur.size = blk.b then
      mergeBlocks (MBlock.mk cur.a cur.b (cur.size + blk.size)) bs
    else
      (if cur.size ≠ 0 then [cur] else []) ++ mergeBlocks blk bs

/-- `SequenceMatcher.get_matching_blocks()`: merged sorted blocks followed
by the terminating sentinel `(len(a), len(b), 0)`. -/
def getMatchingBlocks [DecidableEq α] (a b : List α) : List MBlock :=
  mergeBlocks (MBlock.mk 0 0 0) (matchingBlocksRec a b (a.length + 1) 0 a.length 0 b.length)
    ++ [MBlock.mk a.length b.length 0]

/-- An opcode tag of `SequenceMatcher.get_opcodes()`. -/
inductive OpTag where
  | equal
  | insert
  | delete
  | replace
deriving DecidableEq, Repr

/-- An opcode `(tag, i1, i2, j1, j2)` of `get_opcodes()`. -/
structure Opcode where
  tag : OpTag
  i1 : Nat
  i2 : Nat
  j1 : Nat
  j2 : Nat
deriving DecidableEq, Repr

/-- The opcode-emitting fold of `get_opcodes()`, walking the matching
blocks with the running positions `(i, j)`. -/
def opcodesFrom : Nat → Nat → List MBlock → List Opcode
  | _, _, [] => []
  | i, j, blk :: bs =>
    (if i < blk.a ∧ j < blk.b then [Opcode.mk .replace i blk.a j blk.b]
     else if i < blk.a then [Opcode.mk .delete i blk.a j blk.b]
     else if j < blk.b then [Opcode.mk .insert i blk.a j blk.b]
     else [])
      ++ (if blk.size ≠ 0 then
            [Opcode.mk .equal blk.a (blk.a + blk.size) blk.b (blk.b + blk.size)]
          else [])
      ++ opcodesFrom (blk.a + blk.size) (blk.b + blk.size) bs

/-- `SequenceMatcher.get_opcodes()`. -/
def getOpcodes [DecidableEq α] (a b : List α) : List Opcode :=
  opcodesFrom 0 0 (getMatchingBlocks a b)

/-- `"".join(tokens[i1:i2])`. -/
def sliceJoin (toks : List (List Char)) (i1 i2 : Nat) : List Char :=
  ((toks.drop i1).take (i2 - i1)).flatten

/-- Translation of one opcode into a `DiffOp`, mirroring the `for` body of
`_compute_diff` (human_editor.py:224). -/
def opcodeToDiffOp (oldToks newToks : List (List Char)) (oc : Opcode) : DiffOp :=
  let oldChunk := sliceJoin oldToks oc.i1 oc.i2
  let newChunk := sliceJoin newToks oc.j1 oc.j2
  match oc.tag with
  | .equal => DiffOp.mk .equal oldChunk newChunk
  | .insert => DiffOp.mk .insert [] newChunk
  | .delete => DiffOp.mk .delete oldChunk []
  | .replace => DiffOp.mk .replace oldChunk newChunk

/-- `_compute_diff` (human_editor.py:219): word-level diff of the two
texts via `difflib.SequenceMatcher` over the token lists. -/
def computeDiff (original replacement : List Char) : List DiffOp :=
  let oldToks := wordTokenize original
  let newToks := wordTokenize replacement
  (getOpcodes oldToks newToks).map (opcodeToDiffOp oldToks newToks)

/-- Invariant of a `j2len` row: every non-zero entry lies in `[blo, bhi)`,
is at most `m` (the number of rows processed so far), and fits to the left
of its own column. -/
def RowOK (blo bhi m : Nat) (f : Nat → Nat) : Prop :=
  ∀ j, f j ≠ 0 → blo ≤ j ∧ j < bhi ∧ f j ≤ m ∧ f j + blo ≤ j + 1

/-- The best match lies inside the rectangle `[alo, ahi) × [blo, bhi)`. -/
def BestOK (alo ahi blo bhi : Nat) (b : Best) : Prop :=
  alo ≤ b.i ∧ b.i + b.size ≤ ahi ∧ blo ≤ b.j ∧ b.j + b.size ≤ bhi

/-- The blocks form an increasing chain starting no earlier than `(i, j)`
and ending no later than `(A, B)`. -/
def ChainIn (i j A B : Nat) : List MBlock → Prop
  | [] => True
  | blk :: bs =>
    i ≤ blk.a ∧ j ≤ blk.b ∧ blk.a + blk.size ≤ A ∧ blk.b + blk.size ≤ B ∧
      ChainIn (blk.a + blk.size) (blk.b + blk.size) A B bs

/-- End position (old side) after walking the blocks from `i`. -/
def blocksEndA : Nat → List MBlock → Nat
  | i, [] => i
  | _, blk :: bs => blocksEndA (blk.a + blk.size) bs

/-- End position (new side) after walking the blocks from `j`. -/
def blocksEndB : Nat → List MBlock → Nat
  | j, [] => j
  | _, blk :: bs => blocksEndB (blk.b + blk.size) bs

/-- Old-side chunks of an opcode list, with `insert` opcodes skipped (in
`_compute_diff` an insert op carries `old_text = ""`). -/
def ocOldConcat (toks : List (List Char)) : List Opcode → List Char
  | [] => []
  | oc :: ocs =>
    (if oc.tag = .insert then [] else sliceJoin toks oc.i1 oc.i2) ++ ocOldConcat toks ocs

/-- New-side chunks of an opcode list, with `delete` opcodes skipped. -/
def ocNewConcat (toks : List (List Char)) : List Opcode → List Char
  | [] => []
  | oc :: ocs =>
    (if oc.tag = .delete then [] else sliceJoin toks oc.j1 oc.j2) ++ ocNewConcat toks ocs

/-- Concatenation of `old_text` over all ops whose kind is not `insert`. -/
def oldReconstruct : List DiffOp → List Char
  | [] => []
  | op :: ops =>
    (if op.kind = DiffKind.insert then [] else op.old) ++ oldReconstruct ops

/-- Concatenation of `new_text` over all ops whose kind is not `delete`. -/
def newReconstruct : List DiffOp → List Char
  | [] => []
  | op :: ops =>
    (if op.kind = DiffKind.delete then [] else op.new) ++ newReconstruct ops

/-- Python's `round()` (round-half-to-even) on an exact rational.
`_map_old_index_to_new_index` computes `int(round(ratio * span_new))` in
floating point; exact rational arithmetic is used here. -/
def pyRound (q : ℚ) : ℤ :=
  if q - ⌊q⌋ < 1/2 then ⌊q⌋
  else if 1/2 < q - ⌊q⌋ then ⌊q⌋ + 1
  else if Even ⌊q⌋ then ⌊q⌋ else ⌊q⌋ + 1

/-- The opcode scan of `_map_old_index_to_new_index` (human_editor.py:244):
the first opcode whose old-side span contains `oldIndex` determines the
result (`insert` spans are empty and fall through); if no opcode matches,
`len(new_text)` is returned. -/
def mapScan (newLen oldIndex : Nat) : List Opcode → Nat
  | [] => newLen
  | oc :: ocs =>
    if oc.i1 ≤ oldIndex ∧ oldIndex < oc.i2 then
      match oc.tag with
      | .equal => oc.j1 + (oldIndex - oc.i1)
      | .replace =>
        let spanOld := max 1 (oc.i2 - oc.i1)
        let spanNew := max 0 (oc.j2 - oc.j1)
        let frac : ℚ := (oldIndex - oc.i1 : ℚ) / (spanOld : ℚ)
        oc.j1 + (pyRound (frac * (spanNew : ℚ))).toNat
      | .delete => oc.j1
      | .insert => mapScan newLen oldIndex ocs
    else mapScan newLen oldIndex ocs

/-- `_map_old_index_to_new_index` (human_editor.py:238): map an index in
`old` to an approximate index in `new` via a character-level
`SequenceMatcher` alignment. -/
def mapOldIndexToNewIndex (old new : List Char) (oldIndex : Nat) : Nat :=
  if oldIndex = 0 then 0
  else if old.length ≤ oldIndex then new.length
  else mapScan new.length oldIndex (getOpcodes old new)

/-- `TypingWorker._op_work` (human_editor.py:678): the work contributed by
one op (Insert/Equal: `new_text` length; Delete: `old_text` length;
Replace: `old_text` plus `new_text` length). -/
def opWork (op : DiffOp) : Nat :=
  match op.kind with
  | .equal => op.new.length
  | .insert => op.new.length
  | .delete => op.old.length
  | .replace => op.old.length + op.new.length

/-- `len(op.old_text) if op.kind in ("equal", "delete", "replace") else 0`
(human_editor.py:701). -/
def oldLenOf (op : DiffOp) : Nat :=
  if op.kind = DiffKind.equal ∨ op.kind = DiffKind.delete ∨
      op.kind = DiffKind.replace then
    op.old.length
  else 0

/-- Total work of a script (`sum(self._op_work(op) for op in self.diff_ops)`). -/
def totalWork (ops : List DiffOp) : Nat := (ops.map opWork).sum

/-- Total old-side length of a script (human_editor.py:740). -/
def totalOldLen (ops : List DiffOp) : Nat := (ops.map oldLenOf).sum

/-- The `while` loop of `TypingWorker._trim_ops_for_start`
(human_editor.py:699), threading the original-text cursor and the skipped
work; on the op containing `startPos` the op is sliced (Replace slices the
new side at `_map_old_index_to_new_index`) and the remaining ops are
appended unchanged. -/
def trimGo (startPos : Nat) : List DiffOp → Nat → Nat → (List DiffOp × Nat)
  | [], _, skipped => ([], skipped)
  | op :: rest, cursor, skipped =>
    if cursor + oldLenOf op ≤ startPos then
      trimGo startPos rest (cursor + oldLenOf op) (skipped + opWork op)
    else if startPos ≤ cursor then (op :: rest, skipped)
    else
      let offset := startPos - cursor
      match op.kind with
      | .equal =>
        (DiffOp.mk .equal (op.old.drop offset) (op.new.drop offset) :: rest,
          skipped + offset)
      | .delete =>
        (DiffOp.mk .delete (op.old.drop offset) [] :: rest, skipped + offset)
      | .replace =>
        let newOffset := mapOldIndexToNewIndex op.old op.new offset
        (DiffOp.mk .replace (op.old.drop offset) (op.new.drop newOffset) :: rest,
          skipped + offset + newOffset)
      | .insert => (rest, skipped + op.new.length)

/-- `TypingWorker._trim_ops_for_start(start_pos)` (human_editor.py:689):
returns `(trimmed_ops, skipped_work)`; `start_pos <= 0` returns the whole
script with no skipped work. -/
def trimOpsForStart (diffOps : List DiffOp) (startPos : Nat) : List DiffOp × Nat :=
  if startPos = 0 then (diffOps, 0) else trimGo startPos diffOps 0 0

/-- `TypingOptions` (human_editor.py:262). -/
structure TypingOptions where
  wpm : Int := 65
  variability : ℚ := 1/2
  typo_rate : ℚ := 0
  start_delay : Nat := 3
  type_mode : List Char := ['H', 'u', 'm', 'a', 'n']
deriving DecidableEq, Repr

/-- `(self.options.type_mode or "").lower() == "bot"` (human_editor.py:295). -/
def isBot (opts : TypingOptions) : Bool :=
  opts.type_mode.map Char.toLower == ['b', 'o', 't']

/-- The tempo-drift part of `WorkerState`: tempo, streak counters and the
previous actual delay.  Python floats are modelled as exact rationals. -/
structure TempoState where
  tempo : ℚ := 1
  short_bias : Nat := 0
  long_bias : Nat := 0
  last_delay : Option ℚ := none
deriving DecidableEq, Repr

def commonLetters : List Char := ['e', 't', 'a', 'o', 'i', 'n', 's', 'h', 'r', 'd', 'l', 'u']

def mediumLetters : List Char := ['c', 'm', 'f', 'w', 'y', 'p', 'v', 'b', 'g']

def rareLetters : List Char := ['k', 'j', 'q', 'x', 'z']

def symbolChars : List Char := ['@', '#', '$', '%', '&', '*', '_']

/-- `TypingWorker._char_complexity` (human_editor.py:347): rarity and
word-length surcharges, clamped to `[0.5, 1.8]`.  `ch = none` models
Python's falsy `ch` (None or empty); `wordLen = 0` models a falsy
`word_len`. -/
def charComplexity (ch : Option Char) (wordLen : Nat) : ℚ :=
  match ch with
  | none => 1
  | some c =>
    let lower := c.toLower
    let f1 : ℚ :=
      if lower ∈ rareLetters then 1 + 1/4
      else if lower ∈ mediumLetters then 1 + 3/25
      else if lower ∈ commonLetters then 1 - 1/20
      else 1
    let f2 := if c.isDigit || c ∈ symbolChars then f1 + 3/20 else f1
    let f3 :=
      if wordLen ≠ 0 then
        if 12 ≤ wordLen then f2 + 1/4
        else if 8 ≤ wordLen then f2 + 3/20
        else f2
      else f2
    max (1/2) (min (9/5) f3)

/-- The short-streak update of `TypingWorker._update_tempo`
(human_editor.py:370); `Nat` subtraction is Python's `max(0, x - 1)`. -/
def newShortBias (st : TempoState) (baseDelay : ℚ) : Nat :=
  match st.last_delay with
  | none => st.short_bias
  | some ld =>
    if ld < baseDelay * (17/20) then st.short_bias + 1
    else if baseDelay * (23/20) < ld then st.short_bias - 1
    else st.short_bias - 1

/-- The long-streak update of `TypingWorker._update_tempo`. -/
def newLongBias (st : TempoState) (baseDelay : ℚ) : Nat :=
  match st.last_delay with
  | none => st.long_bias
  | some ld =>
    if ld < baseDelay * (17/20) then st.long_bias - 1
    else if baseDelay * (23/20) < ld then st.long_bias + 1
    else st.long_bias - 1

/-- `TypingWorker._update_tempo` (human_editor.py:367), with the random
`uniform(-0.04, 0.04)` draw passed in as `driftDraw`: returns the
multiplier `clamp(tempo2 * complexity, 0.5, 1.5)` and the state with the
updated tempo and streak counters. -/
def updateTempo (st : TempoState) (baseDelay complexity driftDraw : ℚ) :
    ℚ × TempoState :=
  if baseDelay ≤ 0 then (1, st)
  else
    let sb := newShortBias st baseDelay
    let lb := newLongBias st baseDelay
    let drift := driftDraw + (3/100) * (sb : ℚ) - (3/100) * (lb : ℚ)
    let tempo2 := max (1/2) (min (3/2) (st.tempo + drift))
    (max (1/2) (min (3/2) (tempo2 * complexity)),
      TempoState.mk tempo2 sb lb st.last_delay)

/-- `TypingWorker._char_delay` (human_editor.py:387), with the random
draws passed in: `uDraw` is the drawn value of `uniform(1 - v, 1 + v)`
and `driftDraw` the tempo-drift draw.  Returns the delay and the updated
state (the delay is recorded as `last_delay`). -/
def charDelay (opts : TypingOptions) (st : TempoState) (ch : Option Char)
    (wordLen : Nat) (uDraw driftDraw : ℚ) : ℚ × TempoState :=
  if isBot opts then (0, st)
  else
    let base : ℚ := 60 / ((opts.wpm : ℚ) * 5)
    let baseVar := base * uDraw
    let complexity := charComplexity ch wordLen
    let mult := (updateTempo st baseVar complexity driftDraw).1
    let st2 := (updateTempo st baseVar complexity driftDraw).2
    let delay := baseVar * mult
    (delay, TempoState.mk st2.tempo st2.short_bias st2.long_bias (some delay))

/-- Modelled from the spec (§4.2), for comparison with `charDelay`:
"Final delay = clamp(jittered × tempo, 0.5, 1.5) × complexity-adjusted
scale", where jittered = base × Uniform(1−variability, 1+variability),
base = 60/(speed×5), tempo is the drift-updated tempo, and the
complexity-adjusted scale is the complexity factor clamped to [0.5, 1.8];
"Bot mode forces delay = 0". -/
def specCharDelay (opts : TypingOptions) (st : TempoState) (ch : Option Char)
    (wordLen : Nat) (uDraw driftDraw : ℚ) : ℚ :=
  if isBot opts then 0
  else
    let base : ℚ := 60 / ((opts.wpm : ℚ) * 5)
    let jittered := base * uDraw
    let complexity := charComplexity ch wordLen
    let tempo2 := ((updateTempo st jittered complexity driftDraw).2).tempo
    max (1/2) (min (3/2) (jittered * tempo2)) * complexity

/-- The pause flags of the worker (`_paused`, `_pause_notified`). -/
structure PauseState where
  paused : Bool
  pause_notified : Bool
deriving DecidableEq, Repr

/-- `TypingWorker.pause` (human_editor.py:318): toggles the paused flag
and, when entering a pause, clears the notified flag. -/
def pauseToggle (s : PauseState) : PauseState :=
  PauseState.mk (!s.paused) (if !s.paused then false else s.pause_notified)

/-- `TypingWorker._get_context_snippet` (human_editor.py:493): the ±20
character context around `pos` with newlines rendered as `↵`, between the
`…` ellipses and the `▌` cursor marker. -/
def getContextSnippet (text : List Char) (pos : Nat) : List Char :=
  let before := ((text.take pos).drop (pos - 20)).map
    (fun c => if c = '\n' then '↵' else c)
  let after := ((text.drop pos).take 20).map
    (fun c => if c = '\n' then '↵' else c)
  '…' :: (before ++ '▌' :: (after ++ ['…']))

/-- `TypingWorker._handle_pause` (human_editor.py:502): emits the
pause-info notification exactly when paused and not yet notified, and
marks the episode notified; the blocking wait while paused emits
nothing. -/
def handlePause (text : List Char) (pos : Nat) (s : PauseState) :
    PauseState × List (Nat × List Char) :=
  if s.paused ∧ ¬ s.pause_notified then
    (PauseState.mk s.paused true, [(pos, getContextSnippet text pos)])
  else (s, [])

/-- `k` successive polls of the pause check point, collecting the emitted
pause-info notifications. -/
def pollPauses (text : List Char) (pos : Nat) : Nat → PauseState → List (Nat × List Char)
  | 0, _ => []
  | k + 1, s =>
    (handlePause text pos s).2 ++ pollPauses text pos k (handlePause text pos s).1

/-! ### Replace-mode execution model

The interpreter below embeds `TypingWorker._run_replace`
(human_editor.py:738) for sessions whose controller issues only jump
requests, delivered at the top-of-op-loop check points (one schedule slot
consumed per check); stop, skip and pause requests and injector failures
are outside the modelled control language, so every modelled session
terminates Completed.  Status-text signals and the human-mode
thinking/word-pause log lines are not recorded: they issue no injector
calls and no progress/cursor signals, and no claim concerns them.
`int(done / total_work * 100)` is modelled as `done * 100 / total_work`
(exact floor division; the float rounding of the quotient is abstracted).
-/

/-- An injector call (`pyautogui` invocation). -/
inductive Inj where
  | press (key : String) (presses : Nat)
  | hotkey (a b : String)
  | keyDown (key : String)
  | keyUp (key : String)
  | write (c : Char)
deriving DecidableEq, Repr

/-- A log line emitted by the replace loop. -/
inductive LogMsg where
  | noChanges
  | deleted (s : List Char)
  | inserted (s : List Char)
  | replaced (o n : List Char)
  | typoAt (pos : Nat) (intended wrong : Char)
deriving DecidableEq, Repr

/-- A worker notification or injector call, in emission order. -/
inductive Ev where
  | progress (pct : Nat)
  | cursor (pos : Nat)
  | inj (call : Inj)
  | log (m : LogMsg)
deriving DecidableEq, Repr

/-- Session outcome. -/
inductive Outcome where
  | completed
  | stopped
  | errored
deriving DecidableEq, Repr

/-- `TypingWorker._type_char` (human_editor.py:411) as the injector calls
it issues (its pause/stop checks are represented at the model's check
points). -/
def typeCharCalls (c : Char) : List Inj :=
  if c = '"' then [Inj.keyDown "shift", Inj.press "'" 1, Inj.keyUp "shift"]
  else if c = '\'' then [Inj.press "'" 1]
  else if c = '\n' then [Inj.press "enter" 1]
  else if c = '\t' then [Inj.press "tab" 1]
  else [Inj.write c]

/-- The worker's whitespace set `{" ", "\n", "\t"}` (human_editor.py:548). -/
def wsChar (c : Char) : Bool :=
  c = ' ' || c = '\n' || c = '\t'

/-- Maximal runs of same-class (whitespace / non-whitespace) characters
with respect to `wsChar`. -/
def splitRunsWS : List Char → List (List Char)
  | [] => []
  | c :: cs =>
    match splitRunsWS cs with
    | [] => [[c]]
    | run :: runs =>
      match run with
      | [] => [[c]]
      | d :: _ =>
        if wsChar c = wsChar d then (c :: run) :: runs
        else [c] :: run :: runs

/-- `_iter_chars_with_word_len` (human_editor.py:156): each character
paired with the length of its maximal non-whitespace run (0 for
whitespace characters). -/
def iterCharsWithWordLen (text : List Char) : List (Char × Nat) :=
  (splitRunsWS text).flatMap fun run =>
    match run with
    | [] => []
    | d :: ds =>
      (d :: ds).map fun c => (c, if wsChar d then 0 else (d :: ds).length)

/-- `op.kind != "equal" and (op.old_text or op.new_text)`
(human_editor.py:762). -/
def isChangeOp (op : DiffOp) : Bool :=
  op.kind != DiffKind.equal && (op.old != [] || op.new != [])

/-- The index of the last change op (`last_change_idx`,
human_editor.py:760; `none` models `-1`). -/
def lastChangeIdx : List DiffOp → Option Nat
  | [] => none
  | op :: rest =>
    match lastChangeIdx rest with
    | some i => some (i + 1)
    | none => if isChangeOp op then some 0 else none

/-- The human-mode Equal loop (human_editor.py:809): one `right` press,
cursor advance, and progress signal per character of `new_text`. -/
def equalHumanLoop (total : Nat) : List (Char × Nat) → Nat → Nat → (List Ev × Nat × Nat)
  | [], done, cur => ([], done, cur)
  | _cw :: rest, done, cur =>
    let evs := [Ev.inj (Inj.press "right" 1), Ev.cursor (cur + 1),
      Ev.progress ((done + 1) * 100 / total)]
    let r := equalHumanLoop total rest (done + 1) (cur + 1)
    (evs ++ r.1, r.2)

/-- The per-character typing loop of the Insert and Replace branches
(human_editor.py:874, 930): type the character, bump `done`, emit cursor
(unchanged) and progress. -/
def typeLoop (total cur : Nat) : List (Char × Nat) → Nat → (List Ev × Nat)
  | [], done => ([], done)
  | cw :: rest, done =>
    let evs := (typeCharCalls cw.1).map Ev.inj ++
      [Ev.cursor cur, Ev.progress ((done + 1) * 100 / total)]
    let r := typeLoop total cur rest (done + 1)
    (evs ++ r.1, r.2)

/-- One op of the replace loop (human_editor.py:792): events, new `done`,
new `cursor_in_original`. -/
def procOp (bot : Bool) (total : Nat) (op : DiffOp) (done cur : Nat) :
    List Ev × Nat × Nat :=
  match op.kind with
  | .equal =>
    if bot then
      if op.new.length ≠ 0 then
        ([Ev.inj (Inj.press "right" op.new.length), Ev.cursor (cur + op.new.length),
          Ev.progress ((done + op.new.length) * 100 / total)],
          done + op.new.length, cur + op.new.length)
      else ([], done, cur)
    else
      equalHumanLoop total (iterCharsWithWordLen op.new) done cur
  | .delete =>
    let n := op.old.length
    let delEvs :=
      if bot then (if n ≠ 0 then [Ev.inj (Inj.press "delete" n)] else [])
      else List.replicate n (Ev.inj (Inj.hotkey "shift" "right")) ++
        [Ev.inj (Inj.press "delete" 1)]
    (delEvs ++ [Ev.cursor cur, Ev.progress ((done + n) * 100 / total),
      Ev.log (LogMsg.deleted (op.old.take 30))], done + n, cur)
  | .insert =>
    let r := typeLoop total cur (iterCharsWithWordLen op.new) done
    (r.1 ++ [Ev.log (LogMsg.inserted (op.new.take 30))], r.2, cur)
  | .replace =>
    let nDel := op.old.length
    let delEvs :=
      if bot then (if nDel ≠ 0 then [Ev.inj (Inj.press "delete" nDel)] else [])
      else List.replicate nDel (Ev.inj (Inj.hotkey "shift" "right"))
    let r := typeLoop total cur (iterCharsWithWordLen op.new) (done + nDel)
    (delEvs ++ r.1 ++ [Ev.log (LogMsg.replaced (op.old.take 20) (op.new.take 20))],
      r.2, cur)

/-- The per-op `for` loop (human_editor.py:773): at each top-of-loop
check one controller schedule slot is delivered; a delivered jump request
breaks out with a restart; after the op at `lastIdx` the loop breaks
(human_editor.py:955).  Returns (events, pending restart jump, remaining
schedule). -/
def procOps (bot : Bool) (total lastIdx : Nat) :
    List DiffOp → Nat → Nat → Nat → List (Option Nat) →
      (List Ev × Option Nat × List (Option Nat))
  | [], _, _, _, sched => ([], none, sched)
  | op :: rest, i, done, cur, sched =>
    match sched.headD none with
    | some j => ([], some j, sched.tail)
    | none =>
      let r := procOp bot total op done cur
      if lastIdx ≤ i then (r.1, none, sched.tail)
      else
        let r2 := procOps bot total lastIdx rest (i + 1) r.2.1 r.2.2 sched.tail
        (r.1 ++ r2.1, r2.2)

/-- One pass of the `while True` loop of `_run_replace`: trim from
`startPos`, emit the cursor and baseline progress, end early when the
trimmed script has no change op (human_editor.py:765), otherwise run the
per-op loop. -/
def runPass (bot : Bool) (ops : List DiffOp) (total : Nat) (startPos : Nat)
    (sched : List (Option Nat)) : List Ev × Option Nat × List (Option Nat) :=
  let t := trimOpsForStart ops startPos
  let evs0 := [Ev.cursor startPos, Ev.progress (t.2 * 100 / total)]
  match lastChangeIdx t.1 with
  | none => (evs0 ++ [Ev.progress 100, Ev.log LogMsg.noChanges], none, sched)
  | some L =>
    let r := procOps bot total L t.1 0 t.2 startPos sched
    (evs0 ++ r.1, r.2)

/-- The `while True` loop of `_run_replace`: a pending jump restarts the
pass from `min(jump, total_old_len)`.  Each restart consumes at least one
schedule slot, so `fuel = sched.length + 1` always suffices. -/
def runLoop (bot : Bool) (ops : List DiffOp) (total totalOld : Nat) :
    Nat → Nat → List (Option Nat) → List Ev
  | 0, _, _ => []
  | fuel + 1, startPos, sched =>
    let r := runPass bot ops total startPos sched
    match r.2.1 with
    | none => r.1
    | some j => r.1 ++ runLoop bot ops total totalOld fuel (min j totalOld) r.2.2

/-- `TypingWorker._run_replace` (human_editor.py:738) for a session whose
controller issues the jump requests of `sched` (see the section
comment): the emitted events and the session outcome. -/
def runReplace (ops : List DiffOp) (startPos0 : Nat) (bot : Bool)
    (sched : List (Option Nat)) : List Ev × Outcome :=
  (runLoop bot ops (max (totalWork ops) 1) (totalOldLen ops)
    (sched.length + 1) (min startPos0 (totalOldLen ops)) sched,
    Outcome.completed)

/-- The injector calls of an event trace, in order. -/
def injCalls (evs : List Ev) : List Inj :=
  evs.filterMap fun e => match e with | .inj c => some c | _ => none

/-- The progress percentages of an event trace, in order. -/
def progressList (evs : List Ev) : List Nat :=
  evs.filterMap fun e => match e with | .progress p => some p | _ => none

/-- The last emitted logical cursor position of an event trace. -/
def lastCursor (evs : List Ev) : Option Nat :=
  (evs.filterMap fun e => match e with | .cursor p => some p | _ => none).getLast?

/-- Scripts whose non-Equal ops (with non-empty text) are absent. -/
def noChangeScript (ops : List DiffOp) : Prop :=
  ∀ op ∈ ops, op.kind = DiffKind.equal ∨ (op.old = [] ∧ op.new = [])

/-- Scripts whose Equal ops carry equally long old and new text (true of
every script the diff engine produces). -/
def equalBalanced (ops : List DiffOp) : Prop :=
  ∀ op ∈ ops, op.kind = DiffKind.equal → op.old.length = op.new.length

/-- Lower-bounded monotone non-decreasing list. -/
def monoFrom (d : Nat) : List Nat → Prop
  | [] => True
  | x :: xs => d ≤ x ∧ monoFrom x xs

/-- Last element of a list, with default `d`. -/
def lastD (d : Nat) : List Nat → Nat
  | [] => d
  | x :: xs => lastD x xs

/-- `_KEYBOARD_NEIGHBORS` (human_editor.py:129): nearby keys on a QWERTY
layout. -/
def keyboardNeighbors (c : Char) : List Char :=
  match c with
  | 'q' => ['w', 'a', 's']
  | 'w' => ['q', 'e', 'a', 's', 'd']
  | 'e' => ['w', 'r', 's', 'd']
  | 'r' => ['e', 't', 'd', 'f']
  | 't' => ['r', 'y', 'f', 'g']
  | 'y' => ['t', 'u', 'g', 'h']
  | 'u' => ['y', 'i', 'j', 'h']
  | 'i' => ['u', 'o', 'j', 'k']
  | 'o' => ['i', 'p', 'l', 'k']
  | 'p' => ['o', 'l']
  | 'a' => ['q', 'w', 's', 'z']
  | 's' => ['w', 'e', 'd', 'a', 'z', 'x']
  | 'd' => ['e', 'r', 'f', 's', 'c', 'x']
  | 'f' => ['r', 't', 'g', 'd', 'c', 'v']
  | 'g' => ['t', 'y', 'h', 'f', 'v', 'b']
  | 'h' => ['y', 'u', 'j', 'g', 'n', 'b']
  | 'j' => ['u', 'i', 'k', 'h', 'm']
  | 'k' => ['i', 'o', 'j', 'l', 'm']
  | 'l' => ['o', 'p', 'k']
  | 'z' => ['a', 's', 'x']
  | 'x' => ['z', 's', 'd', 'c']
  | 'c' => ['x', 'd', 'f', 'v']
  | 'v' => ['c', 'f', 'g', 'b']
  | 'b' => ['v', 'g', 'h', 'n']
  | 'n' => ['b', 'h', 'j', 'm']
  | 'm' => ['n', 'j', 'k']
  | '1' => ['2', 'q']
  | '2' => ['1', '3', 'q', 'w']
  | '3' => ['2', '4', 'w', 'e']
  | '4' => ['3', '5', 'e', 'r']
  | '5' => ['4', '6', 'r', 't']
  | '6' => ['5', '7', 't', 'y']
  | '7' => ['6', '8', 'y', 'u']
  | '8' => ['7', '9', 'u', 'i']
  | '9' => ['8', '0', 'i', 'o']
  | '0' => ['9', 'o', 'p']
  | _ => []

/-- The fallback pool of `_nearby_key`. -/
def alphabetChars : List Char :=
  ['a', 'b', 'c', 'd', 'e', 'f', 'g', 'h', 'i', 'j', 'k', 'l', 'm',
    'n', 'o', 'p', 'q', 'r', 's', 't', 'u', 'v', 'w', 'x', 'y', 'z']

/-- `_nearby_key` (human_editor.py:145), with `random.choice` modelled as
selection at index `r mod pool size`; case is preserved. -/
def nearbyKey (ch : Char) (r : Nat) : Char :=
  let neighbors := keyboardNeighbors ch.toLower
  let pool := if neighbors = [] then alphabetChars else neighbors
  let picked := pool.getD (r % pool.length) 'a'
  if ch.isUpper then picked.toUpper else picked

/-- The word-end scan of the typo branch (human_editor.py:606): the end
of the maximal non-whitespace run starting at `idx`. -/
def wordEndFrom (text : List Char) (idx : Nat) : Nat :=
  idx + ((text.drop idx).takeWhile (fun c => !(wsChar c))).length

/-- The correcting retype loop of the typo branch (human_editor.py:645):
retype each character, bump `done`, emit cursor and progress. -/
def retypeLoop (total : Nat) : List Char → Nat → Nat → List Ev
  | [], _, _ => []
  | c :: cs, j, done =>
    (typeCharCalls c).map Ev.inj ++
      [Ev.cursor (j + 1), Ev.progress ((done + 1) * 100 / total)] ++
      retypeLoop total cs (j + 1) (done + 1)

/-- The typo branch of `_run_fresh` (human_editor.py:601, no stop request
during the correction): type the wrong neighbor key, log the typo, finish
the rest of the current word, press backspace once per character typed
after the typo plus once for the wrong character, then retype from the
typo position to the word end; sleeps are untimed. -/
def typoBranch (text : List Char) (idx : Nat) (ch wrong : Char)
    (done total : Nat) : List Ev :=
  let e := wordEndFrom text idx
  (typeCharCalls wrong).map Ev.inj ++
    [Ev.log (LogMsg.typoAt idx ch wrong)] ++
    ((text.drop (idx + 1)).take (e - (idx + 1))).flatMap
      (fun c => (typeCharCalls c).map Ev.inj) ++
    List.replicate ((e - (idx + 1)) + 1) (Ev.inj (Inj.press "backspace" 1)) ++
    retypeLoop total ((text.drop idx).take (e - idx)) idx done

/-- Drop the last `n` elements. -/
def dropLastN : Nat → List Char → List Char
  | 0, l => l
  | n + 1, l => dropLastN n l.dropLast

/-- Effect of one injector call on the text buffer at the typing point
(shift-modifier state tracked for the double-quote chord; navigation
keys do not edit). -/
def applyInj (st : List Char × Bool) (c : Inj) : List Char × Bool :=
  match c with
  | .write ch => (st.1 ++ [ch], st.2)
  | .keyDown k => if k = "shift" then (st.1, true) else st
  | .keyUp k => if k = "shift" then (st.1, false) else st
  | .press k n =>
    if k = "backspace" then (dropLastN n st.1, st.2)
    else if k = "enter" then (st.1 ++ List.replicate n '\n', st.2)
    else if k = "tab" then (st.1 ++ List.replicate n '\t', st.2)
    else if k = "'" then
      (st.1 ++ List.replicate n (if st.2 then '"' else '\''), st.2)
    else st
  | .hotkey _ _ => st

/-- Effect of a call sequence on the buffer. -/
def applyCalls (calls : List Inj) (st : List Char × Bool) : List Char × Bool :=
  calls.foldl applyInj st

/-- Total number of backspace presses in a call sequence. -/
def backspaceCount (calls : List Inj) : Nat :=
  (calls.map fun c =>
    match c with
    | .press k n => if k = "backspace" then n else 0
    | _ => 0).sum

/-! ### Invariants of the matcher -/

theorem flmInner_ok (blo bhi alo ahi i m : Nat) (j2len : Nat → Nat)
    (hrow : RowOK blo bhi m j2len) (hi : i < ahi) (hmi : m + alo ≤ i) :
    ∀ (js : List Nat) (newRow : Nat → Nat) (best : Best),
      RowOK blo bhi (m + 1) newRow → BestOK alo ahi blo bhi best →
      RowOK blo bhi (m + 1) (flmInner blo bhi i j2len js newRow best).1 ∧
        BestOK alo ahi blo bhi (flmInner blo bhi i j2len js newRow best).2 := by
  intro js
  induction js with
  | nil => intro newRow best hnew hbest; exact ⟨hnew, hbest⟩
  | cons j js ih =>
    intro newRow best hnew hbest
    by_cases hlo : j < blo
    · simpa [flmInner, hlo] using ih newRow best hnew hbest
    · by_cases hhi : bhi ≤ j
      · simpa [flmInner, hlo, hhi] using ⟨hnew, hbest⟩
      · have hjlo : blo ≤ j := Nat.le_of_not_lt hlo
        have hjhi : j < bhi := Nat.lt_of_not_le hhi
        have hk1 : (if j = 0 then 0 else j2len (j - 1)) + 1 ≤ m + 1 := by
          split
          · omega
          · rcases Nat.eq_zero_or_pos (j2len (j - 1)) with h0 | h0
            · omega
            · have := (hrow (j - 1) (by omega)).2.2.1
              omega
        have hk2 : (if j = 0 then 0 else j2len (j - 1)) + 1 + blo ≤ j + 1 := by
          split
          · omega
          · rcases Nat.eq_zero_or_pos (j2len (j - 1)) with h0 | h0
            · omega
            · have h1 := (hrow (j - 1) (by omega)).1
              have h2 := (hrow (j - 1) (by omega)).2.2.2
              omega
        set k := (if j = 0 then 0 else j2len (j - 1)) + 1 with hkdef
        have hrow' : RowOK blo bhi (m + 1)
            (fun j' => if j' = j then k else newRow j') := by
          intro j' hj'
          by_cases hq : j' = j
          · subst hq
            have hval : (fun j' => if j' = j' then k else newRow j') j' = k := by
              simp
            rw [hval] at hj' ⊢
            exact ⟨hjlo, hjhi, by omega, by omega⟩
          · have hval : (fun x => if x = j then k else newRow x) j' = newRow j' := by
              simp [hq]
            rw [hval] at hj' ⊢
            exact hnew j' hj'
        have hbest' : BestOK alo ahi blo bhi
            (if best.size < k then Best.mk (i + 1 - k) (j + 1 - k) k else best) := by
          split
          · exact ⟨by simp only; omega, by simp only; omega,
              by simp only; omega, by simp only; omega⟩
          · exact hbest
        simpa [flmInner, hlo, hhi, ← hkdef] using
          ih (fun j' => if j' = j then k else newRow j') _ hrow' hbest'

theorem flmOuter_ok [DecidableEq α] (a b : List α) (alo ahi blo bhi : Nat) :
    ∀ (n i : Nat) (j2len : Nat → Nat) (best : Best),
      alo ≤ i → i + n ≤ ahi → RowOK blo bhi (i - alo) j2len →
      BestOK alo ahi blo bhi best →
      BestOK alo ahi blo bhi
        (flmOuter a b blo bhi (List.range' i n) j2len best) := by
  intro n
  induction n with
  | zero => intro i j2len best _ _ _ hbest; simpa [flmOuter] using hbest
  | succ n ih =>
    intro i j2len best hai hn hrow hbest
    have hi : i < ahi := by omega
    have hmi : (i - alo) + alo ≤ i := by omega
    have h := flmInner_ok blo bhi alo ahi i (i - alo) j2len hrow hi hmi
      (match a[i]? with | some x => b2j b x | none => []) (fun _ => 0) best
      (by intro j hj; simp at hj) hbest
    have hstep : List.range' i (n + 1) = i :: List.range' (i + 1) n := by
      simp [List.range'_succ]
    rw [hstep]
    simp only [flmOuter]
    have hrec := ih (i + 1)
      (flmInner blo bhi i j2len
        (match a[i]? with | some x => b2j b x | none => []) (fun _ => 0) best).1
      (flmInner blo bhi i j2len
        (match a[i]? with | some x => b2j b x | none => []) (fun _ => 0) best).2
      (by omega) (by omega)
      (by
        have : i + 1 - alo = (i - alo) + 1 := by omega
        rw [this]; exact h.1)
      h.2
    exact hrec

theorem flmExtendBack_ok [DecidableEq α] (a b : List α) (alo ahi blo bhi : Nat) :
    ∀ (fuel : Nat) (best : Best), BestOK alo ahi blo bhi best →
      BestOK alo ahi blo bhi (flmExtendBack a b alo blo fuel best) := by
  intro fuel
  induction fuel with
  | zero => intro best hbest; simpa [flmExtendBack] using hbest
  | succ fuel ih =>
    intro best hbest
    obtain ⟨b1, b2, b3, b4⟩ := hbest
    simp only [flmExtendBack]
    split
    · rename_i hcond
      obtain ⟨c1, c2, c3⟩ := hcond
      exact ih _ ⟨by simp only; omega, by simp only; omega,
        by simp only; omega, by simp only; omega⟩
    · exact ⟨b1, b2, b3, b4⟩

theorem flmExtendFwd_ok [DecidableEq α] (a b : List α) (alo ahi blo bhi : Nat) :
    ∀ (fuel : Nat) (best : Best), BestOK alo ahi blo bhi best →
      BestOK alo ahi blo bhi (flmExtendFwd a b ahi bhi fuel best) := by
  intro fuel
  induction fuel with
  | zero => intro best hbest; simpa [flmExtendFwd] using hbest
  | succ fuel ih =>
    intro best hbest
    obtain ⟨b1, b2, b3, b4⟩ := hbest
    simp only [flmExtendFwd]
    split
    · rename_i hcond
      obtain ⟨c1, c2, c3⟩ := hcond
      exact ih _ ⟨by simp only; omega, by simp only; omega,
        by simp only; omega, by simp only; omega⟩
    · exact ⟨b1, b2, b3, b4⟩

theorem findLongestMatch_ok [DecidableEq α] (a b : List α) (alo ahi blo bhi : Nat)
    (h1 : alo ≤ ahi) (h2 : blo ≤ bhi) :
    BestOK alo ahi blo bhi (findLongestMatch a b alo ahi blo bhi) := by
  unfold findLongestMatch
  apply flmExtendFwd_ok
  apply flmExtendBack_ok
  apply flmOuter_ok a b alo ahi blo bhi (ahi - alo) alo (fun _ => 0)
    (Best.mk alo blo 0) (le_refl alo) (by omega)
    (by intro j hj; simp at hj)
  exact ⟨by simp only; omega, by simp only; omega, by simp only; omega,
    by simp only; omega⟩

theorem ChainIn.mono {i j A B i' j' A' B' : Nat} {l : List MBlock}
    (h : ChainIn i j A B l) (hi : i' ≤ i) (hj : j' ≤ j) (hA : A ≤ A') (hB : B ≤ B') :
    ChainIn i' j' A' B' l := by
  induction l generalizing i j i' j' with
  | nil => trivial
  | cons blk bs ih =>
    obtain ⟨h1, h2, h3, h4, h5⟩ := h
    exact ⟨by omega, by omega, by omega, by omega, ih h5 (le_refl _) (le_refl _)⟩

theorem ChainIn.append {i j A B A' B' : Nat} {l1 l2 : List MBlock}
    (h1 : ChainIn i j A B l1) (h2 : ChainIn A B A' B' l2)
    (hiA : i ≤ A) (hjB : j ≤ B) (hA : A ≤ A') (hB : B ≤ B') :
    ChainIn i j A' B' (l1 ++ l2) := by
  induction l1 generalizing i j with
  | nil => exact h2.mono hiA hjB (le_refl _) (le_refl _)
  | cons blk bs ih =>
    obtain ⟨g1, g2, g3, g4, g5⟩ := h1
    exact ⟨g1, g2, by omega, by omega, ih g5 g3 g4⟩

theorem matchingBlocksRec_chain [DecidableEq α] (a b : List α) :
    ∀ (fuel alo ahi blo bhi : Nat), alo ≤ ahi → blo ≤ bhi →
      ChainIn alo blo ahi bhi (matchingBlocksRec a b fuel alo ahi blo bhi) := by
  intro fuel
  induction fuel with
  | zero => intro alo ahi blo bhi _ _; trivial
  | succ fuel ih =>
    intro alo ahi blo bhi hab hcd
    simp only [matchingBlocksRec]
    split
    · trivial
    · rename_i hsz
      obtain ⟨hb1, hb2, hb3, hb4⟩ := findLongestMatch_ok a b alo ahi blo bhi hab hcd
      set m := findLongestMatch a b alo ahi blo bhi
      have hmid : ChainIn m.i m.j (m.i + m.size) (m.j + m.size)
          [MBlock.mk m.i m.j m.size] :=
        ⟨le_refl _, le_refl _, le_refl _, le_refl _, trivial⟩
      have hupper : ChainIn (m.i + m.size) (m.j + m.size) ahi bhi
          (if m.i + m.size < ahi ∧ m.j + m.size < bhi then
            matchingBlocksRec a b fuel (m.i + m.size) ahi (m.j + m.size) bhi
          else []) := by
        split
        · rename_i hc; exact ih _ _ _ _ (by omega) (by omega)
        · trivial
      have hmidup : ChainIn m.i m.j ahi bhi
          (MBlock.mk m.i m.j m.size ::
            (if m.i + m.size < ahi ∧ m.j + m.size < bhi then
              matchingBlocksRec a b fuel (m.i + m.size) ahi (m.j + m.size) bhi
            else [])) :=
        ⟨le_refl _, le_refl _, hb2, hb4, hupper⟩
      have hlower : ChainIn alo blo m.i m.j
          (if alo < m.i ∧ blo < m.j then matchingBlocksRec a b fuel alo m.i blo m.j
            else []) := by
        split
        · rename_i hc; exact ih _ _ _ _ (by omega) (by omega)
        · trivial
      have hfin := hlower.append hmidup hb1 hb3 (by omega) (by omega)
      simpa [List.append_assoc] using hfin

theorem mergeBlocks_chain :
    ∀ (bs : List MBlock) (cur : MBlock) (i j A B : Nat),
      ChainIn i j A B (cur :: bs) → ChainIn i j A B (mergeBlocks cur bs) := by
  intro bs
  induction bs with
  | nil =>
    intro cur i j A B h
    obtain ⟨h1, h2, h3, h4, _⟩ := h
    simp only [mergeBlocks]
    split
    · exact ⟨h1, h2, h3, h4, trivial⟩
    · trivial
  | cons blk bs ih =>
    intro cur i j A B h
    obtain ⟨h1, h2, h3, h4, h5⟩ := h
    obtain ⟨g1, g2, g3, g4, g5⟩ := h5
    simp only [mergeBlocks]
    split
    · rename_i hadj
      apply ih (MBlock.mk cur.a cur.b (cur.size + blk.size)) i j A B
      refine ⟨h1, h2, ?_, ?_, ?_⟩
      · show cur.a + (cur.size + blk.size) ≤ A
        omega
      · show cur.b + (cur.size + blk.size) ≤ B
        omega
      · show ChainIn (cur.a + (cur.size + blk.size)) (cur.b + (cur.size + blk.size)) A B bs
        have ha : cur.a + (cur.size + blk.size) = blk.a + blk.size := by omega
        have hb : cur.b + (cur.size + blk.size) = blk.b + blk.size := by omega
        rw [ha, hb]; exact g5
    · rename_i hadj
      have hrest : ChainIn (cur.a + cur.size) (cur.b + cur.size) A B
          (mergeBlocks blk bs) :=
        ih blk _ _ A B ⟨g1, g2, g3, g4, g5⟩
      split
      · exact ⟨h1, h2, h3, h4, hrest⟩
      · rename_i hz
        exact hrest.mono (by omega) (by omega) (le_refl _) (le_refl _)

theorem ChainIn.append_sentinel {i j A B : Nat} {l : List MBlock}
    (h : ChainIn i j A B l) (hiA : i ≤ A) (hjB : j ≤ B) :
    ChainIn i j A B (l ++ [MBlock.mk A B 0]) := by
  induction l generalizing i j with
  | nil =>
    refine ⟨hiA, hjB, ?_, ?_, trivial⟩
    · show A + 0 ≤ A
      omega
    · show B + 0 ≤ B
      omega
  | cons blk bs ih =>
    obtain ⟨h1, h2, h3, h4, h5⟩ := h
    exact ⟨h1, h2, h3, h4, ih h5 h3 h4⟩

theorem getMatchingBlocks_chain [DecidableEq α] (a b : List α) :
    ChainIn 0 0 a.length b.length (getMatchingBlocks a b) := by
  unfold getMatchingBlocks
  apply ChainIn.append_sentinel _ (Nat.zero_le _) (Nat.zero_le _)
  apply mergeBlocks_chain
  refine ⟨le_refl _, le_refl _, by simp, by simp, ?_⟩
  simpa using matchingBlocksRec_chain a b (a.length + 1) 0 a.length 0 b.length
    (Nat.zero_le _) (Nat.zero_le _)

/-! ### The tiling property of opcodes -/

theorem blocksEndA_append (l1 l2 : List MBlock) :
    ∀ i, blocksEndA i (l1 ++ l2) = blocksEndA (blocksEndA i l1) l2 := by
  induction l1 with
  | nil => intro i; rfl
  | cons blk bs ih => intro i; simp [blocksEndA, ih]

theorem blocksEndB_append (l1 l2 : List MBlock) :
    ∀ j, blocksEndB j (l1 ++ l2) = blocksEndB (blocksEndB j l1) l2 := by
  induction l1 with
  | nil => intro j; rfl
  | cons blk bs ih => intro j; simp [blocksEndB, ih]

theorem le_blocksEndA {A B : Nat} :
    ∀ {l : List MBlock} {i j : Nat}, ChainIn i j A B l → i ≤ blocksEndA i l := by
  intro l
  induction l with
  | nil => intro i j _; exact le_refl i
  | cons blk bs ih =>
    intro i j h
    obtain ⟨h1, h2, _, _, h5⟩ := h
    calc i ≤ blk.a + blk.size := by omega
    _ ≤ blocksEndA (blk.a + blk.size) bs := ih h5
    _ = blocksEndA i (blk :: bs) := rfl

theorem le_blocksEndB {A B : Nat} :
    ∀ {l : List MBlock} {i j : Nat}, ChainIn i j A B l → j ≤ blocksEndB j l := by
  intro l
  induction l with
  | nil => intro i j _; exact le_refl j
  | cons blk bs ih =>
    intro i j h
    obtain ⟨h1, h2, _, _, h5⟩ := h
    calc j ≤ blk.b + blk.size := by omega
    _ ≤ blocksEndB (blk.b + blk.size) bs := ih h5
    _ = blocksEndB j (blk :: bs) := rfl

theorem sliceJoin_glue (toks : List (List Char)) (i m n : Nat)
    (him : i ≤ m) (hmn : m ≤ n) :
    sliceJoin toks i m ++ sliceJoin toks m n = sliceJoin toks i n := by
  unfold sliceJoin
  rw [← List.flatten_append]
  congr 1
  have hd : toks.drop m = (toks.drop i).drop (m - i) := by
    rw [List.drop_drop]; congr 1; omega
  rw [hd, ← List.take_add]
  congr 1
  omega

theorem sliceJoin_self (toks : List (List Char)) (i : Nat) :
    sliceJoin toks i i = [] := by
  simp [sliceJoin]

theorem ocOldConcat_append (toks : List (List Char)) :
    ∀ l1 l2 : List Opcode,
      ocOldConcat toks (l1 ++ l2) = ocOldConcat toks l1 ++ ocOldConcat toks l2 := by
  intro l1 l2
  induction l1 with
  | nil => rfl
  | cons oc ocs ih => simp [ocOldConcat, ih, List.append_assoc]

theorem ocNewConcat_append (toks : List (List Char)) :
    ∀ l1 l2 : List Opcode,
      ocNewConcat toks (l1 ++ l2) = ocNewConcat toks l1 ++ ocNewConcat toks l2 := by
  intro l1 l2
  induction l1 with
  | nil => rfl
  | cons oc ocs ih => simp [ocNewConcat, ih, List.append_assoc]

theorem opcodesFrom_old (toks : List (List Char)) {A B : Nat} :
    ∀ (bs : List MBlock) (i j : Nat), ChainIn i j A B bs →
      ocOldConcat toks (opcodesFrom i j bs) = sliceJoin toks i (blocksEndA i bs) := by
  intro bs
  induction bs with
  | nil => intro i j _; simp [opcodesFrom, ocOldConcat, blocksEndA, sliceJoin_self]
  | cons blk rest ih =>
    intro i j h
    obtain ⟨h1, h2, h3, h4, h5⟩ := h
    have hend : blk.a + blk.size ≤ blocksEndA (blk.a + blk.size) rest :=
      le_blocksEndA h5
    have hrec := ih (blk.a + blk.size) (blk.b + blk.size) h5
    have hendeq : blocksEndA i (blk :: rest) = blocksEndA (blk.a + blk.size) rest := rfl
    rw [hendeq]
    simp only [opcodesFrom]
    rw [ocOldConcat_append, ocOldConcat_append]
    have hpiece1 :
        ocOldConcat toks
          (if i < blk.a ∧ j < blk.b then [Opcode.mk .replace i blk.a j blk.b]
           else if i < blk.a then [Opcode.mk .delete i blk.a j blk.b]
           else if j < blk.b then [Opcode.mk .insert i blk.a j blk.b]
           else []) = sliceJoin toks i blk.a := by
      by_cases hc1 : i < blk.a ∧ j < blk.b
      · simp [hc1, ocOldConcat]
      · by_cases hc2 : i < blk.a
        · have hc3 : ¬ j < blk.b := fun hh => hc1 ⟨hc2, hh⟩
          simp [hc1, hc2, hc3, ocOldConcat]
        · have hia : i = blk.a := by omega
          by_cases hc3 : j < blk.b
          · simp [hc1, hc2, hc3, ocOldConcat, hia, sliceJoin_self]
          · simp [hc1, hc2, hc3, ocOldConcat, hia, sliceJoin_self]
    have hpiece2 :
        ocOldConcat toks
          (if blk.size ≠ 0 then
            [Opcode.mk .equal blk.a (blk.a + blk.size) blk.b (blk.b + blk.size)]
           else []) = sliceJoin toks blk.a (blk.a + blk.size) := by
      by_cases hsz : blk.size ≠ 0
      · simp [hsz, ocOldConcat]
      · have hz : blk.size = 0 := by omega
        simp [hsz, ocOldConcat, hz, sliceJoin_self]
    rw [hpiece1, hpiece2, hrec]
    rw [sliceJoin_glue toks i blk.a (blk.a + blk.size) h1 (by omega)]
    exact sliceJoin_glue toks i (blk.a + blk.size)
      (blocksEndA (blk.a + blk.size) rest) (by omega) hend

theorem opcodesFrom_new (toks : List (List Char)) {A B : Nat} :
    ∀ (bs : List MBlock) (i j : Nat), ChainIn i j A B bs →
      ocNewConcat toks (opcodesFrom i j bs) = sliceJoin toks j (blocksEndB j bs) := by
  intro bs
  induction bs with
  | nil => intro i j _; simp [opcodesFrom, ocNewConcat, blocksEndB, sliceJoin_self]
  | cons blk rest ih =>
    intro i j h
    obtain ⟨h1, h2, h3, h4, h5⟩ := h
    have hend : blk.b + blk.size ≤ blocksEndB (blk.b + blk.size) rest :=
      le_blocksEndB h5
    have hrec := ih (blk.a + blk.size) (blk.b + blk.size) h5
    have hendeq : blocksEndB j (blk :: rest) = blocksEndB (blk.b + blk.size) rest := rfl
    rw [hendeq]
    simp only [opcodesFrom]
    rw [ocNewConcat_append, ocNewConcat_append]
    have hpiece1 :
        ocNewConcat toks
          (if i < blk.a ∧ j < blk.b then [Opcode.mk .replace i blk.a j blk.b]
           else if i < blk.a then [Opcode.mk .delete i blk.a j blk.b]
           else if j < blk.b then [Opcode.mk .insert i blk.a j blk.b]
           else []) = sliceJoin toks j blk.b := by
      by_cases hc1 : i < blk.a ∧ j < blk.b
      · simp [hc1, ocNewConcat]
      · by_cases hc2 : i < blk.a
        · have hc3 : ¬ j < blk.b := fun hh => hc1 ⟨hc2, hh⟩
          have hjb : j = blk.b := by omega
          simp [hc1, hc2, hc3, ocNewConcat, hjb, sliceJoin_self]
        · by_cases hc3 : j < blk.b
          · simp [hc1, hc2, hc3, ocNewConcat]
          · have hjb : j = blk.b := by omega
            simp [hc1, hc2, hc3, ocNewConcat, hjb, sliceJoin_self]
    have hpiece2 :
        ocNewConcat toks
          (if blk.size ≠ 0 then
            [Opcode.mk .equal blk.a (blk.a + blk.size) blk.b (blk.b + blk.size)]
           else []) = sliceJoin toks blk.b (blk.b + blk.size) := by
      by_cases hsz : blk.size ≠ 0
      · simp [hsz, ocNewConcat]
      · have hz : blk.size = 0 := by omega
        simp [hsz, ocNewConcat, hz, sliceJoin_self]
    rw [hpiece1, hpiece2, hrec]
    rw [sliceJoin_glue toks j blk.b (blk.b + blk.size) h2 (by omega)]
    exact sliceJoin_glue toks j (blk.b + blk.size)
      (blocksEndB (blk.b + blk.size) rest) (by omega) hend

theorem wordTokenize_ne_nil : ∀ t : List Char, ∀ r ∈ wordTokenize t, r ≠ [] := by
  intro t
  induction t with
  | nil => intro r hr; simp [wordTokenize] at hr
  | cons c cs ih =>
    intro r hr
    simp only [wordTokenize] at hr
    rcases hws : wordTokenize cs with _ | ⟨run, runs⟩
    · rw [hws] at hr
      simp at hr
      simp [hr]
    · rw [hws] at hr
      rcases run with _ | ⟨d, ds⟩
      · simp at hr
        simp [hr]
      · by_cases hcls : pyIsSpace c = pyIsSpace d
        · simp only [if_pos hcls] at hr
          rcases List.mem_cons.mp hr with h | h
          · simp [h]
          · exact ih r (by rw [hws]; exact List.mem_cons_of_mem _ h)
        · simp only [if_neg hcls] at hr
          rcases List.mem_cons.mp hr with h | h
          · simp [h]
          · exact ih r (by rw [hws]; exact h)

theorem wordTokenize_cons_cons (c d : Char) (ds : List Char)
    (runs : List (List Char)) (cs : List Char)
    (hws : wordTokenize cs = (d :: ds) :: runs) :
    wordTokenize (c :: cs) =
      if pyIsSpace c = pyIsSpace d then (c :: d :: ds) :: runs
      else [c] :: (d :: ds) :: runs := by
  simp [wordTokenize, hws]

theorem wordTokenize_flatten : ∀ t : List Char, (wordTokenize t).flatten = t := by
  intro t
  induction t with
  | nil => rfl
  | cons c cs ih =>
    rcases hws : wordTokenize cs with _ | ⟨run, runs⟩
    · rw [hws] at ih
      simp at ih
      simp [wordTokenize, hws, ih]
    · rcases hrun : run with _ | ⟨d, ds⟩
      · rw [hrun] at hws
        exact absurd rfl
          (wordTokenize_ne_nil cs [] (by rw [hws]; exact List.mem_cons_self _ _))
      · rw [hrun] at hws
        rw [hws] at ih
        rw [wordTokenize_cons_cons c d ds runs cs hws]
        by_cases hcls : pyIsSpace c = pyIsSpace d
        · rw [if_pos hcls]
          simp [← ih]
        · rw [if_neg hcls]
          simp [← ih]

theorem blocksEndA_getMatchingBlocks [DecidableEq α] (a b : List α) :
    blocksEndA 0 (getMatchingBlocks a b) = a.length := by
  unfold getMatchingBlocks
  rw [blocksEndA_append]
  simp [blocksEndA]

theorem blocksEndB_getMatchingBlocks [DecidableEq α] (a b : List α) :
    blocksEndB 0 (getMatchingBlocks a b) = b.length := by
  unfold getMatchingBlocks
  rw [blocksEndB_append]
  simp [blocksEndB]

theorem oldReconstruct_map (oldToks newToks : List (List Char)) :
    ∀ ocs : List Opcode,
      oldReconstruct (ocs.map (opcodeToDiffOp oldToks newToks)) =
        ocOldConcat oldToks ocs := by
  intro ocs
  induction ocs with
  | nil => rfl
  | cons oc rest ih =>
    cases htag : oc.tag <;>
      simp [oldReconstruct, ocOldConcat, opcodeToDiffOp, htag, ih]

theorem newReconstruct_map (oldToks newToks : List (List Char)) :
    ∀ ocs : List Opcode,
      newReconstruct (ocs.map (opcodeToDiffOp oldToks newToks)) =
        ocNewConcat newToks ocs := by
  intro ocs
  induction ocs with
  | nil => rfl
  | cons oc rest ih =>
    cases htag : oc.tag <;>
      simp [newReconstruct, ocNewConcat, opcodeToDiffOp, htag, ih]

theorem sliceJoin_full (toks : List (List Char)) :
    sliceJoin toks 0 toks.length = toks.flatten := by
  simp [sliceJoin]

theorem computeDiff_old (O R : List Char) :
    oldReconstruct (computeDiff O R) = O := by
  unfold computeDiff
  rw [oldReconstruct_map, getOpcodes,
    opcodesFrom_old (wordTokenize O) (getMatchingBlocks (wordTokenize O) (wordTokenize R))
      0 0 (getMatchingBlocks_chain (wordTokenize O) (wordTokenize R)),
    blocksEndA_getMatchingBlocks, sliceJoin_full, wordTokenize_flatten]

theorem computeDiff_new (O R : List Char) :
    newReconstruct (computeDiff O R) = R := by
  unfold computeDiff
  rw [newReconstruct_map, getOpcodes,
    opcodesFrom_new (wordTokenize R) (getMatchingBlocks (wordTokenize O) (wordTokenize R))
      0 0 (getMatchingBlocks_chain (wordTokenize O) (wordTokenize R)),
    blocksEndB_getMatchingBlocks, sliceJoin_full, wordTokenize_flatten]

/-- Claim C1: for every pair of texts `(O, R)`, the edit script produced by
`_compute_diff` reconstructs both sides: concatenating `old_text` over all
ops whose kind is not `insert` equals `O` exactly, and concatenating
`new_text` over all ops whose kind is not `delete` equals `R` exactly. -/
theorem C1_compute_diff_reconstructs (O R : List Char) :
    oldReconstruct (computeDiff O R) = O ∧ newReconstruct (computeDiff O R) = R :=
  ⟨computeDiff_old O R, computeDiff_new O R⟩

theorem drop_append_ge {α : Type} (l1 l2 : List α) :
    ∀ m : Nat, l1.length ≤ m → (l1 ++ l2).drop m = l2.drop (m - l1.length) := by
  induction l1 with
  | nil => intro m _; simp
  | cons a l1 ih =>
    intro m hm
    cases m with
    | zero => simp at hm
    | succ m =>
      simp only [List.cons_append, List.drop_succ_cons]
      rw [ih m (by simpa using hm)]
      congr 1
      simp only [List.length_cons]
      omega

theorem drop_append_le {α : Type} (l1 l2 : List α) :
    ∀ m : Nat, m ≤ l1.length → (l1 ++ l2).drop m = l1.drop m ++ l2 := by
  induction l1 with
  | nil => intro m hm; simp at hm; simp [hm]
  | cons a l1 ih =>
    intro m hm
    cases m with
    | zero => simp
    | succ m =>
      simp only [List.cons_append, List.drop_succ_cons]
      exact ih m (by simpa using hm)

theorem oldReconstruct_length :
    ∀ ops : List DiffOp, (oldReconstruct ops).length = totalOldLen ops := by
  intro ops
  induction ops with
  | nil => rfl
  | cons op rest ih =>
    obtain ⟨k, oldT, newT⟩ := op
    cases k with
    | insert => simp [oldReconstruct, totalOldLen, oldLenOf] at ih ⊢; omega
    | equal => simp [oldReconstruct, totalOldLen, oldLenOf] at ih ⊢; omega
    | delete => simp [oldReconstruct, totalOldLen, oldLenOf] at ih ⊢; omega
    | replace => simp [oldReconstruct, totalOldLen, oldLenOf] at ih ⊢; omega

theorem totalOldLen_cons (op : DiffOp) (rest : List DiffOp) :
    totalOldLen (op :: rest) = oldLenOf op + totalOldLen rest := by
  simp [totalOldLen]

theorem totalWork_cons (op : DiffOp) (rest : List DiffOp) :
    totalWork (op :: rest) = opWork op + totalWork rest := by
  simp [totalWork]

theorem trimGo_consume (startPos : Nat) :
    ∀ (ops : List DiffOp) (cursor skipped : Nat),
      cursor + totalOldLen ops ≤ startPos →
      trimGo startPos ops cursor skipped = ([], skipped + totalWork ops) := by
  intro ops
  induction ops with
  | nil => intro cursor skipped h; simp [trimGo, totalWork]
  | cons op rest ih =>
    intro cursor skipped h
    rw [totalOldLen_cons] at h
    have hb : cursor + oldLenOf op ≤ startPos := by omega
    simp only [trimGo, if_pos hb]
    rw [ih (cursor + oldLenOf op) (skipped + opWork op) (by omega), totalWork_cons]
    congr 1
    omega

theorem trimGo_old_suffix (startPos : Nat) :
    ∀ (ops : List DiffOp) (cursor skipped : Nat),
      cursor ≤ startPos → startPos ≤ cursor + totalOldLen ops →
      oldReconstruct (trimGo startPos ops cursor skipped).1 =
        (oldReconstruct ops).drop (startPos - cursor) := by
  intro ops
  induction ops with
  | nil =>
    intro cursor skipped h1 h2
    have hz : startPos = cursor := by
      simp [totalOldLen] at h2
      omega
    simp [trimGo, hz, oldReconstruct]
  | cons op rest ih =>
    intro cursor skipped h1 h2
    rw [totalOldLen_cons] at h2
    by_cases hb1 : cursor + oldLenOf op ≤ startPos
    · simp only [trimGo, if_pos hb1]
      rw [ih (cursor + oldLenOf op) (skipped + opWork op) hb1 (by omega)]
      obtain ⟨k, oldT, newT⟩ := op
      cases k with
      | insert => simp [oldReconstruct, oldLenOf]
      | equal =>
        rw [show oldLenOf (DiffOp.mk DiffKind.equal oldT newT) = oldT.length from
          by simp [oldLenOf]] at hb1 ⊢
        rw [show oldReconstruct (DiffOp.mk DiffKind.equal oldT newT :: rest) =
            oldT ++ oldReconstruct rest from by simp [oldReconstruct]]
        rw [drop_append_ge oldT (oldReconstruct rest) (startPos - cursor) (by omega)]
        congr 1
        omega
      | delete =>
        rw [show oldLenOf (DiffOp.mk DiffKind.delete oldT newT) = oldT.length from
          by simp [oldLenOf]] at hb1 ⊢
        rw [show oldReconstruct (DiffOp.mk DiffKind.delete oldT newT :: rest) =
            oldT ++ oldReconstruct rest from by simp [oldReconstruct]]
        rw [drop_append_ge oldT (oldReconstruct rest) (startPos - cursor) (by omega)]
        congr 1
        omega
      | replace =>
        rw [show oldLenOf (DiffOp.mk DiffKind.replace oldT newT) = oldT.length from
          by simp [oldLenOf]] at hb1 ⊢
        rw [show oldReconstruct (DiffOp.mk DiffKind.replace oldT newT :: rest) =
            oldT ++ oldReconstruct rest from by simp [oldReconstruct]]
        rw [drop_append_ge oldT (oldReconstruct rest) (startPos - cursor) (by omega)]
        congr 1
        omega
    · by_cases hb2 : startPos ≤ cursor
      · simp only [trimGo, if_neg hb1, if_pos hb2]
        have hz : startPos - cursor = 0 := by omega
        rw [hz, List.drop_zero]
      · obtain ⟨k, oldT, newT⟩ := op
        cases k with
        | insert =>
          exfalso
          simp [oldLenOf] at hb1
          omega
        | equal =>
          simp only [trimGo, if_neg hb1, if_neg hb2]
          have hlt : startPos - cursor ≤ oldT.length := by
            simp [oldLenOf] at hb1
            omega
          rw [show oldReconstruct (DiffOp.mk DiffKind.equal
              (oldT.drop (startPos - cursor)) (newT.drop (startPos - cursor)) :: rest) =
              oldT.drop (startPos - cursor) ++ oldReconstruct rest from
            by simp [oldReconstruct]]
          rw [show oldReconstruct (DiffOp.mk DiffKind.equal oldT newT :: rest) =
              oldT ++ oldReconstruct rest from by simp [oldReconstruct]]
          rw [drop_append_le oldT (oldReconstruct rest) (startPos - cursor) hlt]
        | delete =>
          simp only [trimGo, if_neg hb1, if_neg hb2]
          have hlt : startPos - cursor ≤ oldT.length := by
            simp [oldLenOf] at hb1
            omega
          rw [show oldReconstruct (DiffOp.mk DiffKind.delete
              (oldT.drop (startPos - cursor)) [] :: rest) =
              oldT.drop (startPos - cursor) ++ oldReconstruct rest from
            by simp [oldReconstruct]]
          rw [show oldReconstruct (DiffOp.mk DiffKind.delete oldT newT :: rest) =
              oldT ++ oldReconstruct rest from by simp [oldReconstruct]]
          rw [drop_append_le oldT (oldReconstruct rest) (startPos - cursor) hlt]
        | replace =>
          simp only [trimGo, if_neg hb1, if_neg hb2]
          have hlt : startPos - cursor ≤ oldT.length := by
            simp [oldLenOf] at hb1
            omega
          rw [show oldReconstruct (DiffOp.mk DiffKind.replace
              (oldT.drop (startPos - cursor))
              (newT.drop (mapOldIndexToNewIndex oldT newT (startPos - cursor))) :: rest) =
              oldT.drop (startPos - cursor) ++ oldReconstruct rest from
            by simp [oldReconstruct]]
          rw [show oldReconstruct (DiffOp.mk DiffKind.replace oldT newT :: rest) =
              oldT ++ oldReconstruct rest from by simp [oldReconstruct]]
          rw [drop_append_le oldT (oldReconstruct rest) (startPos - cursor) hlt]

/-- Claim C5 (amended with `O ≠ ""`): for every script produced by the
diff engine from `(O, R)` with `O` nonempty, trimming at offset `0`
returns the identical script with no skipped work, and trimming at
`len(O)` consumes the whole script with skipped work equal to the total
work.  (For `O = ""` the `start_pos <= 0` early return fires at offset
`len(O) = 0` and the whole script is returned instead.) -/
theorem C5_trim_endpoints (O R : List Char) (h : O ≠ []) :
    trimOpsForStart (computeDiff O R) 0 = (computeDiff O R, 0) ∧
      trimOpsForStart (computeDiff O R) O.length =
        ([], totalWork (computeDiff O R)) := by
  constructor
  · simp [trimOpsForStart]
  · have hlen : O.length ≠ 0 := by
      cases O
      · exact absurd rfl h
      · simp
    unfold trimOpsForStart
    rw [if_neg hlen]
    have htot : totalOldLen (computeDiff O R) = O.length := by
      rw [← oldReconstruct_length, computeDiff_old]
    rw [trimGo_consume O.length (computeDiff O R) 0 0 (by omega)]
    simp

theorem C5_trim_endpoints_witness :
    trimOpsForStart (computeDiff ['a', 'b'] ['a', 'c']) 0 =
        (computeDiff ['a', 'b'] ['a', 'c'], 0) ∧
      trimOpsForStart (computeDiff ['a', 'b'] ['a', 'c'])
          (['a', 'b'] : List Char).length =
        ([], totalWork (computeDiff ['a', 'b'] ['a', 'c'])) :=
  C5_trim_endpoints ['a', 'b'] ['a', 'c'] (by decide)

/-- Claim C5 counterexample: for `O = ""`, `R = "x"` the script is a
single Insert with total work 1, yet trimming at `len(O) = 0` hits the
`start_pos <= 0` early return and yields the whole script with skipped
work 0, not the empty list with skipped work 1 the claim demands. -/
theorem C5_counterexample :
    computeDiff [] ['x'] = [DiffOp.mk .insert [] ['x']] ∧
      totalWork (computeDiff [] ['x']) = 1 ∧
      trimOpsForStart (computeDiff [] ['x']) (List.length ([] : List Char)) =
        ([DiffOp.mk .insert [] ['x']], 0) ∧
      trimOpsForStart (computeDiff [] ['x']) (List.length ([] : List Char)) ≠
        ([], totalWork (computeDiff [] ['x'])) := by
  decide

/-- Claim C10: for every pair of texts, every script produced by the diff
engine from them, and every start offset `s ≤ len(O)`, concatenating
`old_text` over the non-Insert ops of the trimmed script equals `O[s:]`
exactly: trimming preserves the old-side reconstruction invariant on the
remaining suffix. -/
theorem C10_trim_preserves_old_suffix (O R : List Char) (s : Nat)
    (hs : s ≤ O.length) :
    oldReconstruct (trimOpsForStart (computeDiff O R) s).1 = O.drop s := by
  by_cases h0 : s = 0
  · subst h0
    simp [trimOpsForStart, computeDiff_old]
  · unfold trimOpsForStart
    rw [if_neg h0]
    have htot : totalOldLen (computeDiff O R) = O.length := by
      rw [← oldReconstruct_length, computeDiff_old]
    have hmain := trimGo_old_suffix s (computeDiff O R) 0 0 (by omega) (by omega)
    rw [computeDiff_old] at hmain
    simpa using hmain

theorem C10_witness :
    oldReconstruct
        (trimOpsForStart (computeDiff ['a', 'b', ' ', 'c', 'd'] ['x']) 3).1 =
      (['a', 'b', ' ', 'c', 'd'] : List Char).drop 3 :=
  C10_trim_preserves_old_suffix ['a', 'b', ' ', 'c', 'd'] ['x'] 3 (by decide)

theorem updateTempo_fst_bounds (st : TempoState) (bd cx d : ℚ) :
    1/2 ≤ (updateTempo st bd cx d).1 ∧ (updateTempo st bd cx d).1 ≤ 3/2 := by
  unfold updateTempo
  split
  · norm_num
  · dsimp only
    exact ⟨le_max_left _ _, max_le (by norm_num) (min_le_left _ _)⟩

/-- Claim C3 (amended): `_char_delay` returns 0 in Bot mode for every
character, word length and options; in Human mode it returns
jittered × clamp(tempo′ × complexity, 0.5, 1.5) — the clamp applies to the
tempo-complexity multiplier, not to jittered × tempo as the spec words it —
hence for wpm > 0, variability v ∈ [0, 1] and a jitter draw
u ∈ [1 − v, 1 + v] the delay lies in [0.5·(1−v)·base, 1.5·(1+v)·base]. -/
theorem C3_char_delay (opts : TypingOptions) (st : TempoState)
    (ch : Option Char) (wordLen : Nat) (u d : ℚ)
    (hw : 0 < opts.wpm) (hv0 : 0 ≤ opts.variability) (hv1 : opts.variability ≤ 1)
    (hu1 : 1 - opts.variability ≤ u) (hu2 : u ≤ 1 + opts.variability) :
    (isBot opts = true → (charDelay opts st ch wordLen u d).1 = 0) ∧
      (isBot opts = false →
        (charDelay opts st ch wordLen u d).1 =
          60 / ((opts.wpm : ℚ) * 5) * u *
            (updateTempo st (60 / ((opts.wpm : ℚ) * 5) * u)
              (charComplexity ch wordLen) d).1 ∧
        1/2 * (1 - opts.variability) * (60 / ((opts.wpm : ℚ) * 5)) ≤
          (charDelay opts st ch wordLen u d).1 ∧
        (charDelay opts st ch wordLen u d).1 ≤
          3/2 * (1 + opts.variability) * (60 / ((opts.wpm : ℚ) * 5))) := by
  constructor
  · intro hb
    simp [charDelay, hb]
  · intro hb
    have heq : (charDelay opts st ch wordLen u d).1 =
        60 / ((opts.wpm : ℚ) * 5) * u *
          (updateTempo st (60 / ((opts.wpm : ℚ) * 5) * u)
            (charComplexity ch wordLen) d).1 := by
      simp [charDelay, hb]
    have hwq : (0 : ℚ) < (opts.wpm : ℚ) := by exact_mod_cast hw
    have hbase : (0 : ℚ) < 60 / ((opts.wpm : ℚ) * 5) := by positivity
    have hu0 : (0 : ℚ) ≤ u := by linarith
    obtain ⟨hm1, hm2⟩ := updateTempo_fst_bounds st (60 / ((opts.wpm : ℚ) * 5) * u)
      (charComplexity ch wordLen) d
    refine ⟨heq, ?_, ?_⟩
    · rw [heq]
      calc 1/2 * (1 - opts.variability) * (60 / ((opts.wpm : ℚ) * 5)) =
          60 / ((opts.wpm : ℚ) * 5) * ((1 - opts.variability) * (1/2)) := by ring
        _ ≤ 60 / ((opts.wpm : ℚ) * 5) * (u * (1/2)) := by
            apply mul_le_mul_of_nonneg_left _ hbase.le
            linarith
        _ ≤ 60 / ((opts.wpm : ℚ) * 5) *
            (u * (updateTempo st (60 / ((opts.wpm : ℚ) * 5) * u)
              (charComplexity ch wordLen) d).1) := by
            apply mul_le_mul_of_nonneg_left _ hbase.le
            exact mul_le_mul_of_nonneg_left hm1 hu0
        _ = 60 / ((opts.wpm : ℚ) * 5) * u *
            (updateTempo st (60 / ((opts.wpm : ℚ) * 5) * u)
              (charComplexity ch wordLen) d).1 := by ring
    · rw [heq]
      calc 60 / ((opts.wpm : ℚ) * 5) * u *
            (updateTempo st (60 / ((opts.wpm : ℚ) * 5) * u)
              (charComplexity ch wordLen) d).1 =
          60 / ((opts.wpm : ℚ) * 5) *
            (u * (updateTempo st (60 / ((opts.wpm : ℚ) * 5) * u)
              (charComplexity ch wordLen) d).1) := by ring
        _ ≤ 60 / ((opts.wpm : ℚ) * 5) * (u * (3/2)) := by
            apply mul_le_mul_of_nonneg_left _ hbase.le
            exact mul_le_mul_of_nonneg_left hm2 hu0
        _ ≤ 60 / ((opts.wpm : ℚ) * 5) * ((1 + opts.variability) * (3/2)) := by
            apply mul_le_mul_of_nonneg_left _ hbase.le
            linarith
        _ = 3/2 * (1 + opts.variability) * (60 / ((opts.wpm : ℚ) * 5)) := by ring

theorem C3_char_delay_witness :
    (isBot (TypingOptions.mk 65 0 0 3 ['H', 'u', 'm', 'a', 'n']) = true →
      (charDelay (TypingOptions.mk 65 0 0 3 ['H', 'u', 'm', 'a', 'n'])
        (TempoState.mk 1 0 0 none) none 0 1 0).1 = 0) ∧
      (isBot (TypingOptions.mk 65 0 0 3 ['H', 'u', 'm', 'a', 'n']) = false →
        (charDelay (TypingOptions.mk 65 0 0 3 ['H', 'u', 'm', 'a', 'n'])
          (TempoState.mk 1 0 0 none) none 0 1 0).1 =
          60 / (((65 : Int) : ℚ) * 5) * 1 *
            (updateTempo (TempoState.mk 1 0 0 none)
              (60 / (((65 : Int) : ℚ) * 5) * 1) (charComplexity none 0) 0).1 ∧
        1/2 * (1 - 0) * (60 / (((65 : Int) : ℚ) * 5)) ≤
          (charDelay (TypingOptions.mk 65 0 0 3 ['H', 'u', 'm', 'a', 'n'])
            (TempoState.mk 1 0 0 none) none 0 1 0).1 ∧
        (charDelay (TypingOptions.mk 65 0 0 3 ['H', 'u', 'm', 'a', 'n'])
          (TempoState.mk 1 0 0 none) none 0 1 0).1 ≤
          3/2 * (1 + 0) * (60 / (((65 : Int) : ℚ) * 5))) :=
  C3_char_delay (TypingOptions.mk 65 0 0 3 ['H', 'u', 'm', 'a', 'n'])
    (TempoState.mk 1 0 0 none) none 0 1 0 (by decide) (by norm_num) (by norm_num)
    (by norm_num) (by norm_num)

/-- Claim C3 counterexample: at wpm 12 (base = 1 s), variability 1,
jitter draw u = 2, drift draw 0, character `z` in a 12-letter word
(complexity 3/2), the code returns `2 × clamp(1 × 3/2) = 3`, while the
spec formula `clamp(jittered × tempo, 0.5, 1.5) × complexity` gives
`3/2 × 3/2 = 9/4`, and 3 exceeds the claimed `[0.5, 1.5] × base ×
complexity` bound even with the complexity bound read as its maximal
clamp value 1.8. -/
theorem C3_counterexample :
    (charDelay (TypingOptions.mk 12 1 0 3 ['H', 'u', 'm', 'a', 'n'])
        (TempoState.mk 1 0 0 none) (some 'z') 12 2 0).1 = 3 ∧
      specCharDelay (TypingOptions.mk 12 1 0 3 ['H', 'u', 'm', 'a', 'n'])
        (TempoState.mk 1 0 0 none) (some 'z') 12 2 0 = 9/4 ∧
      (charDelay (TypingOptions.mk 12 1 0 3 ['H', 'u', 'm', 'a', 'n'])
          (TempoState.mk 1 0 0 none) (some 'z') 12 2 0).1 ≠
        specCharDelay (TypingOptions.mk 12 1 0 3 ['H', 'u', 'm', 'a', 'n'])
          (TempoState.mk 1 0 0 none) (some 'z') 12 2 0 ∧
      ¬ (charDelay (TypingOptions.mk 12 1 0 3 ['H', 'u', 'm', 'a', 'n'])
          (TempoState.mk 1 0 0 none) (some 'z') 12 2 0).1 ≤
        3/2 * (60 / (((12 : Int) : ℚ) * 5)) * (9/5) := by
  have hbot : isBot (TypingOptions.mk 12 1 0 3 ['H', 'u', 'm', 'a', 'n']) = false := by
    decide
  have hcx : charComplexity (some 'z') 12 = 3/2 := by
    simp only [charComplexity]
    rw [if_pos (by decide : 'z'.toLower ∈ rareLetters)]
    rw [if_neg (by decide : ¬('z'.isDigit || 'z' ∈ symbolChars) = true)]
    rw [if_pos (by decide : (12 : Nat) ≠ 0)]
    rw [if_pos (by decide : 12 ≤ (12 : Nat))]
    norm_num [max_def, min_def]
  have hb2 : (60 : ℚ) / (((12 : Int) : ℚ) * 5) * 2 = 2 := by norm_num
  have hut : (updateTempo (TempoState.mk 1 0 0 none) (2 : ℚ) (3/2) 0).1 = 3/2 := by
    unfold updateTempo
    rw [if_neg (by norm_num)]
    dsimp only [newShortBias, newLongBias]
    norm_num [max_def, min_def]
  have hut2 : ((updateTempo (TempoState.mk 1 0 0 none) (2 : ℚ) (3/2) 0).2).tempo = 1 := by
    unfold updateTempo
    rw [if_neg (by norm_num)]
    dsimp only [newShortBias, newLongBias]
    norm_num [max_def, min_def]
  have hcode : (charDelay (TypingOptions.mk 12 1 0 3 ['H', 'u', 'm', 'a', 'n'])
      (TempoState.mk 1 0 0 none) (some 'z') 12 2 0).1 = 3 := by
    simp only [charDelay, hbot, Bool.false_eq_true, if_false]
    rw [hcx, hb2, hut]
    norm_num
  have hspec : specCharDelay (TypingOptions.mk 12 1 0 3 ['H', 'u', 'm', 'a', 'n'])
      (TempoState.mk 1 0 0 none) (some 'z') 12 2 0 = 9/4 := by
    simp only [specCharDelay, hbot, Bool.false_eq_true, if_false]
    rw [hcx, hb2, hut2]
    norm_num [max_def, min_def]
  refine ⟨hcode, hspec, ?_, ?_⟩
  · rw [hcode, hspec]
    norm_num
  · rw [hcode]
    norm_num

/-! ### Pause machinery (C6) -/

theorem pollPauses_notified (text : List Char) (pos : Nat) :
    ∀ (k : Nat) (s : PauseState), s.pause_notified = true →
      pollPauses text pos k s = [] := by
  intro k
  induction k with
  | zero => intro s _; rfl
  | succ k ih =>
    intro s hs
    simp only [pollPauses, handlePause]
    rw [if_neg (by simp [hs])]
    simpa using ih s hs

/-- Claim C6: a pause episode (pause toggled on from an unpaused state)
emits exactly one pause-info notification — carrying the current offset
and the ±20-character context snippet with newlines rendered as a visible
marker — no matter how many times (`k ≥ 1`) the pause check point is
reached while paused. -/
theorem C6_pause_single_notification (text : List Char) (pos : Nat)
    (s : PauseState) (k : Nat) (hs : s.paused = false) (hk : 1 ≤ k) :
    pollPauses text pos k (pauseToggle s) = [(pos, getContextSnippet text pos)] := by
  obtain ⟨m, rfl⟩ : ∃ m, k = m + 1 := ⟨k - 1, by omega⟩
  have htog : pauseToggle s = PauseState.mk true false := by
    simp [pauseToggle, hs]
  rw [htog]
  simp only [pollPauses, handlePause]
  rw [if_pos (by simp)]
  simp only
  rw [pollPauses_notified text pos m (PauseState.mk true true) rfl]
  simp

theorem C6_pause_single_notification_witness :
    pollPauses ['a', '\n', 'b'] 1 3 (pauseToggle (PauseState.mk false false)) =
      [(1, getContextSnippet ['a', '\n', 'b'] 1)] :=
  C6_pause_single_notification ['a', '\n', 'b'] 1 (PauseState.mk false false) 3
    rfl (by decide)

/-! ### No-op sessions (C7) -/

theorem lastChangeIdx_none_of_noChange :
    ∀ ops : List DiffOp, noChangeScript ops → lastChangeIdx ops = none := by
  intro ops
  induction ops with
  | nil => intro _; rfl
  | cons op rest ih =>
    intro h
    have hrest : lastChangeIdx rest = none :=
      ih fun x hx => h x (List.mem_cons_of_mem _ hx)
    have hop : isChangeOp op = false := by
      rcases h op (List.mem_cons_self _ _) with hk | ⟨ho, hn⟩
      · simp [isChangeOp, hk]
      · simp [isChangeOp, ho, hn]
    simp [lastChangeIdx, hrest, hop]

theorem trimGo_noChange (startPos : Nat) :
    ∀ (ops : List DiffOp) (cursor skipped : Nat), noChangeScript ops →
      noChangeScript (trimGo startPos ops cursor skipped).1 := by
  intro ops
  induction ops with
  | nil => intro cursor skipped _; intro x hx; simp [trimGo] at hx
  | cons op rest ih =>
    intro cursor skipped h
    have hop := h op (List.mem_cons_self _ _)
    have hrest : noChangeScript rest := fun x hx => h x (List.mem_cons_of_mem _ hx)
    by_cases hb1 : cursor + oldLenOf op ≤ startPos
    · simp only [trimGo, if_pos hb1]
      exact ih (cursor + oldLenOf op) (skipped + opWork op) hrest
    · by_cases hb2 : startPos ≤ cursor
      · simp only [trimGo, if_neg hb1, if_pos hb2]
        exact h
      · obtain ⟨k, oldT, newT⟩ := op
        cases k with
        | equal =>
          simp only [trimGo, if_neg hb1, if_neg hb2]
          intro x hx
          rcases List.mem_cons.mp hx with hx | hx
          · left; rw [hx]
          · exact hrest x hx
        | insert =>
          exfalso
          simp [oldLenOf] at hb1
          omega
        | delete =>
          exfalso
          rcases hop with hk | ⟨ho, hn⟩
          · simp at hk
          · simp only at ho
            rw [ho] at hb1
            simp [oldLenOf] at hb1
            omega
        | replace =>
          exfalso
          rcases hop with hk | ⟨ho, hn⟩
          · simp at hk
          · simp only at ho
            rw [ho] at hb1
            simp [oldLenOf] at hb1
            omega

theorem trimOpsForStart_noChange (ops : List DiffOp) (startPos : Nat)
    (h : noChangeScript ops) : noChangeScript (trimOpsForStart ops startPos).1 := by
  unfold trimOpsForStart
  split
  · exact h
  · exact trimGo_noChange startPos ops 0 0 h

/-- Claim C7: a Replace-mode session whose script contains no non-Equal
op with non-empty text completes immediately: no injector call is issued,
progress 100 and the distinguishing "no changes" log entry are emitted,
and the session ends Completed, not Errored. -/
theorem C7_noop_session (ops : List DiffOp) (s : Nat) (bot : Bool)
    (h : noChangeScript ops) :
    injCalls (runReplace ops s bot []).1 = [] ∧
      Ev.progress 100 ∈ (runReplace ops s bot []).1 ∧
      Ev.log LogMsg.noChanges ∈ (runReplace ops s bot []).1 ∧
      (runReplace ops s bot []).2 = Outcome.completed := by
  have hnc : lastChangeIdx (trimOpsForStart ops (min s (totalOldLen ops))).1 = none :=
    lastChangeIdx_none_of_noChange _ (trimOpsForStart_noChange ops _ h)
  refine ⟨?_, ?_, ?_, rfl⟩
  · simp [runReplace, runLoop, runPass, hnc, injCalls]
  · simp [runReplace, runLoop, runPass, hnc]
  · simp [runReplace, runLoop, runPass, hnc]

theorem C7_noop_session_witness :
    injCalls (runReplace [DiffOp.mk DiffKind.equal ['a', 'b'] ['a', 'b']] 0 true []).1 = [] ∧
      Ev.progress 100 ∈ (runReplace [DiffOp.mk DiffKind.equal ['a', 'b'] ['a', 'b']] 0 true []).1 ∧
      Ev.log LogMsg.noChanges ∈
        (runReplace [DiffOp.mk DiffKind.equal ['a', 'b'] ['a', 'b']] 0 true []).1 ∧
      (runReplace [DiffOp.mk DiffKind.equal ['a', 'b'] ['a', 'b']] 0 true []).2 =
        Outcome.completed :=
  C7_noop_session [DiffOp.mk DiffKind.equal ['a', 'b'] ['a', 'b']] 0 true
    (by intro op hop; simp at hop; simp [hop])

/-! ### Trailing Equal ops are skipped (C8) -/

theorem procOps_sched_nil_none (bot : Bool) (total L : Nat) :
    ∀ (ops : List DiffOp) (i done cur : Nat),
      (procOps bot total L ops i done cur []).2.1 = none := by
  intro ops
  induction ops with
  | nil => intro i done cur; rfl
  | cons op rest ih =>
    intro i done cur
    simp only [procOps, List.headD, List.tail_nil]
    by_cases hL : L ≤ i
    · simp [hL]
    · simp only [if_neg hL]
      exact ih (i + 1) _ _

theorem procOps_take (bot : Bool) (total L : Nat) :
    ∀ (ops : List DiffOp) (i done cur : Nat), i ≤ L →
      procOps bot total L ops i done cur [] =
        procOps bot total L (ops.take (L + 1 - i)) i done cur [] := by
  intro ops
  induction ops with
  | nil => intro i done cur _; simp [List.take_nil]
  | cons op rest ih =>
    intro i done cur hi
    have htake : (op :: rest).take (L + 1 - i) = op :: rest.take (L - i) := by
      have hstep : L + 1 - i = (L - i) + 1 := by omega
      rw [hstep, List.take_succ_cons]
    rw [htake]
    simp only [procOps, List.headD, List.tail_nil]
    by_cases hL : L ≤ i
    · simp [hL]
    · simp only [if_neg hL]
      have hrw := ih (i + 1) (procOp bot total op done cur).2.1
        (procOp bot total op done cur).2.2 (by omega)
      have hidx : L + 1 - (i + 1) = L - i := by omega
      rw [hidx] at hrw
      rw [hrw]

/-- Claim C8: in a Replace-mode session with no control requests, the
per-op loop stops after the op carrying the last non-Equal change of the
(possibly trimmed) script: the whole session trace equals the trace of
processing only the first `L + 1` trimmed ops, so no injector call (in
particular no cursor-advance keystroke) is issued for any Equal op after
the last non-Equal op. -/
theorem C8_trailing_equals_skipped (ops : List DiffOp) (s : Nat) (bot : Bool)
    (L : Nat) (hs : s ≤ totalOldLen ops)
    (hL : lastChangeIdx (trimOpsForStart ops s).1 = some L) :
    (runReplace ops s bot []).1 =
      [Ev.cursor s,
        Ev.progress ((trimOpsForStart ops s).2 * 100 / max (totalWork ops) 1)] ++
        (procOps bot (max (totalWork ops) 1) L
          ((trimOpsForStart ops s).1.take (L + 1)) 0 (trimOpsForStart ops s).2 s []).1 := by
  have hmin : min s (totalOldLen ops) = s := min_eq_left hs
  simp only [runReplace, runLoop, runPass, hmin, hL]
  rw [procOps_sched_nil_none bot (max (totalWork ops) 1) L]
  simp only
  have htk := procOps_take bot (max (totalWork ops) 1) L (trimOpsForStart ops s).1
    0 (trimOpsForStart ops s).2 s (Nat.zero_le L)
  simp only [Nat.sub_zero] at htk
  rw [htk]

theorem C8_trailing_equals_skipped_witness :
    (runReplace (computeDiff "a b".toList "c b".toList) 0 true []).1 =
      [Ev.cursor 0,
        Ev.progress ((trimOpsForStart (computeDiff "a b".toList "c b".toList) 0).2 * 100 /
          max (totalWork (computeDiff "a b".toList "c b".toList)) 1)] ++
        (procOps true (max (totalWork (computeDiff "a b".toList "c b".toList)) 1) 0
          ((trimOpsForStart (computeDiff "a b".toList "c b".toList) 0).1.take 1) 0
          (trimOpsForStart (computeDiff "a b".toList "c b".toList) 0).2 0 []).1 :=
  C8_trailing_equals_skipped (computeDiff "a b".toList "c b".toList) 0 true 0
    (by decide) (by decide)

/-! ### The concrete "The cat sat." scenario (C2) -/

/-- Claim C2 counterexample: on `O = "The cat sat."`, `R = "The dog sat."`
the Bot-mode session never issues the claimed trailing `move-right 5`
(the trailing Equal op is skipped by the early-finish break) and the
final emitted logical cursor is 4, not 12. -/
theorem C2_counterexample :
    Inj.press "right" 5 ∉
        injCalls (runReplace (computeDiff "The cat sat.".toList "The dog sat.".toList)
          0 true []).1 ∧
      lastCursor (runReplace (computeDiff "The cat sat.".toList "The dog sat.".toList)
          0 true []).1 ≠ some 12 := by
  decide

/-- Claim C2 (amended): the script for `O = "The cat sat."`,
`R = "The dog sat."` is Equal("The "), Replace("cat", "dog"),
Equal(" sat."); a Bot-mode Replace session at offset 0 with no control
requests issues exactly move-right 4 presses, delete 3 presses, and the
characters of "dog", in that order — the trailing Equal is skipped, no
final move-right 5 is issued — and the final emitted logical cursor is
4. -/
theorem C2_bot_replace_scenario :
    computeDiff "The cat sat.".toList "The dog sat.".toList =
        [DiffOp.mk DiffKind.equal "The ".toList "The ".toList,
          DiffOp.mk DiffKind.replace "cat".toList "dog".toList,
          DiffOp.mk DiffKind.equal " sat.".toList " sat.".toList] ∧
      injCalls (runReplace (computeDiff "The cat sat.".toList "The dog sat.".toList)
          0 true []).1 =
        [Inj.press "right" 4, Inj.press "delete" 3,
          Inj.write 'd', Inj.write 'o', Inj.write 'g'] ∧
      lastCursor (runReplace (computeDiff "The cat sat.".toList "The dog sat.".toList)
          0 true []).1 = some 4 := by
  decide

/-! ### Progress monotonicity and jumps (C4) -/

/-- Claim C4 counterexample: in a Bot-mode Replace session on
`O = "ab cd"`, `R = "xy ce"` whose controller requests a jump to offset 0
(before the current position) after the first Replace op, the progress
sequence is 0, 33, 44, 0, 33, 44, 55, 88, 100 — the reported progress
regresses from 44 to 0 at the jump. -/
theorem C4_counterexample :
    computeDiff "ab cd".toList "xy ce".toList =
        [DiffOp.mk DiffKind.replace "ab".toList "xy".toList,
          DiffOp.mk DiffKind.equal " ".toList " ".toList,
          DiffOp.mk DiffKind.replace "cd".toList "ce".toList] ∧
      progressList (runReplace (computeDiff "ab cd".toList "xy ce".toList) 0 true
          [none, some 0]).1 = [0, 33, 44, 0, 33, 44, 55, 88, 100] ∧
      ¬ List.Chain' (· ≤ ·)
        (progressList (runReplace (computeDiff "ab cd".toList "xy ce".toList) 0 true
          [none, some 0]).1) := by
  refine ⟨by decide, by decide, ?_⟩
  have h2 : progressList (runReplace (computeDiff "ab cd".toList "xy ce".toList) 0 true
      [none, some 0]).1 = [0, 33, 44, 0, 33, 44, 55, 88, 100] := by decide
  rw [h2]
  intro h
  simp [List.chain'_cons] at h

theorem monoFrom_of_le {d d' : Nat} {l : List Nat} (h : monoFrom d l) (hd : d' ≤ d) :
    monoFrom d' l := by
  cases l with
  | nil => trivial
  | cons x xs => exact ⟨le_trans hd h.1, h.2⟩

theorem monoFrom_append {l1 l2 : List Nat} :
    ∀ {d : Nat}, monoFrom d l1 → monoFrom (lastD d l1) l2 → monoFrom d (l1 ++ l2) := by
  induction l1 with
  | nil => intro d _ h2; exact h2
  | cons x xs ih =>
    intro d h1 h2
    exact ⟨h1.1, ih h1.2 h2⟩

theorem chain'_of_monoFrom : ∀ {l : List Nat} {d : Nat}, monoFrom d l →
    List.Chain' (fun a b => a ≤ b) (d :: l) := by
  intro l
  induction l with
  | nil => intro d _; simp
  | cons x xs ih =>
    intro d h
    exact List.Chain'.cons h.1 (ih h.2)

theorem progressList_append (e1 e2 : List Ev) :
    progressList (e1 ++ e2) = progressList e1 ++ progressList e2 := by
  simp [progressList, List.filterMap_append]

theorem progressList_inj_map (l : List Inj) :
    progressList (l.map Ev.inj) = [] := by
  induction l with
  | nil => rfl
  | cons c cs ih => simpa [progressList] using ih

theorem progressList_replicate_inj (n : Nat) (c : Inj) :
    progressList (List.replicate n (Ev.inj c)) = [] := by
  induction n with
  | zero => rfl
  | succ n ih => simpa [progressList, List.replicate_succ] using ih

theorem typeLoop_mono (total cur : Nat) :
    ∀ (chs : List (Char × Nat)) (done : Nat),
      done ≤ (typeLoop total cur chs done).2 ∧
        monoFrom (done * 100 / total) (progressList (typeLoop total cur chs done).1) ∧
        lastD (done * 100 / total) (progressList (typeLoop total cur chs done).1) ≤
          (typeLoop total cur chs done).2 * 100 / total := by
  intro chs
  induction chs with
  | nil => intro done; exact ⟨le_refl _, trivial, le_refl _⟩
  | cons cw rest ih =>
    intro done
    obtain ⟨ih1, ih2, ih3⟩ := ih (done + 1)
    have hp : progressList (typeLoop total cur (cw :: rest) done).1 =
        (done + 1) * 100 / total :: progressList (typeLoop total cur rest (done + 1)).1 := by
      simp only [typeLoop, progressList_append, progressList_inj_map, progressList]
      simp
    refine ⟨?_, ?_, ?_⟩
    · simpa [typeLoop] using le_trans (Nat.le_succ done) ih1
    · rw [hp]
      exact ⟨Nat.div_le_div_right (by omega), ih2⟩
    · rw [hp]
      simpa [typeLoop, lastD] using ih3

theorem equalHumanLoop_mono (total : Nat) :
    ∀ (chs : List (Char × Nat)) (done cur : Nat),
      done ≤ (equalHumanLoop total chs done cur).2.1 ∧
        monoFrom (done * 100 / total)
          (progressList (equalHumanLoop total chs done cur).1) ∧
        lastD (done * 100 / total)
            (progressList (equalHumanLoop total chs done cur).1) ≤
          (equalHumanLoop total chs done cur).2.1 * 100 / total := by
  intro chs
  induction chs with
  | nil => intro done cur; exact ⟨le_refl _, trivial, le_refl _⟩
  | cons cw rest ih =>
    intro done cur
    obtain ⟨ih1, ih2, ih3⟩ := ih (done + 1) (cur + 1)
    have hp : progressList (equalHumanLoop total (cw :: rest) done cur).1 =
        (done + 1) * 100 / total ::
          progressList (equalHumanLoop total rest (done + 1) (cur + 1)).1 := by
      simp only [equalHumanLoop, progressList_append, progressList]
      simp
    refine ⟨?_, ?_, ?_⟩
    · simpa [equalHumanLoop] using le_trans (Nat.le_succ done) ih1
    · rw [hp]
      exact ⟨Nat.div_le_div_right (by omega), ih2⟩
    · rw [hp]
      simpa [equalHumanLoop, lastD] using ih3

theorem procOp_mono (bot : Bool) (total : Nat) (op : DiffOp) (done cur : Nat) :
    done ≤ (procOp bot total op done cur).2.1 ∧
      monoFrom (done * 100 / total) (progressList (procOp bot total op done cur).1) ∧
      lastD (done * 100 / total) (progressList (procOp bot total op done cur).1) ≤
        (procOp bot total op done cur).2.1 * 100 / total := by
  obtain ⟨k, oldT, newT⟩ := op
  cases k with
  | equal =>
    by_cases hb : bot
    · by_cases hn : newT.length ≠ 0
      · simp only [procOp, hb, if_true, if_pos hn]
        refine ⟨Nat.le_add_right done newT.length, ?_, ?_⟩
        · simp only [progressList, List.filterMap]
          exact ⟨Nat.div_le_div_right (by omega), trivial⟩
        · simp [progressList, lastD, List.filterMap]
      · simp only [procOp, hb, if_true, if_neg hn]
        exact ⟨le_refl _, trivial, le_refl _⟩
    · simp only [procOp, hb, if_false]
      exact equalHumanLoop_mono total (iterCharsWithWordLen newT) done cur
  | delete =>
    have hp : progressList (procOp bot total (DiffOp.mk DiffKind.delete oldT newT)
        done cur).1 = [(done + oldT.length) * 100 / total] := by
      by_cases hb : bot
      · by_cases hn : oldT.length ≠ 0 <;>
          simp [procOp, hb, hn, progressList_append, progressList]
      · simp [procOp, hb, progressList_append, progressList_replicate_inj, progressList]
    have hs : (procOp bot total (DiffOp.mk DiffKind.delete oldT newT) done cur).2.1 =
        done + oldT.length := by
      by_cases hb : bot <;> simp [procOp, hb]
    rw [hp, hs]
    exact ⟨by omega, ⟨Nat.div_le_div_right (by omega), trivial⟩,
      by simp [lastD]⟩
  | insert =>
    obtain ⟨h1, h2, h3⟩ := typeLoop_mono total cur (iterCharsWithWordLen newT) done
    have hp : progressList (procOp bot total (DiffOp.mk DiffKind.insert oldT newT)
        done cur).1 =
        progressList (typeLoop total cur (iterCharsWithWordLen newT) done).1 := by
      simp [procOp, progressList_append, progressList]
    have hs : (procOp bot total (DiffOp.mk DiffKind.insert oldT newT) done cur).2.1 =
        (typeLoop total cur (iterCharsWithWordLen newT) done).2 := by
      simp [procOp]
    rw [hp, hs]
    exact ⟨h1, h2, h3⟩
  | replace =>
    obtain ⟨h1, h2, h3⟩ := typeLoop_mono total cur (iterCharsWithWordLen newT)
      (done + oldT.length)
    have hp : progressList (procOp bot total (DiffOp.mk DiffKind.replace oldT newT)
        done cur).1 =
        progressList (typeLoop total cur (iterCharsWithWordLen newT)
          (done + oldT.length)).1 := by
      by_cases hb : bot
      · by_cases hn : oldT.length ≠ 0 <;>
          simp [procOp, hb, hn, progressList_append, progressList_replicate_inj,
            progressList]
      · simp [procOp, hb, progressList_append, progressList_replicate_inj, progressList]
    have hs : (procOp bot total (DiffOp.mk DiffKind.replace oldT newT) done cur).2.1 =
        (typeLoop total cur (iterCharsWithWordLen newT) (done + oldT.length)).2 := by
      by_cases hb : bot <;> simp [procOp, hb]
    rw [hp, hs]
    have hd : done * 100 / total ≤ (done + oldT.length) * 100 / total :=
      Nat.div_le_div_right (by omega)
    refine ⟨by omega, monoFrom_of_le h2 hd, ?_⟩
    rcases hq : progressList (typeLoop total cur (iterCharsWithWordLen newT)
        (done + oldT.length)).1 with _ | ⟨x, xs⟩
    · rw [hq] at h3
      simp only [lastD] at h3 ⊢
      omega
    · rw [hq] at h3
      simpa [lastD] using h3

theorem procOps_mono (bot : Bool) (total L : Nat) :
    ∀ (ops : List DiffOp) (i done cur : Nat),
      monoFrom (done * 100 / total)
        (progressList (procOps bot total L ops i done cur []).1) := by
  intro ops
  induction ops with
  | nil => intro i done cur; trivial
  | cons op rest ih =>
    intro i done cur
    obtain ⟨h1, h2, h3⟩ := procOp_mono bot total op done cur
    by_cases hL : L ≤ i
    · simp only [procOps, List.headD, List.tail_nil, if_pos hL]
      exact h2
    · simp only [procOps, List.headD, List.tail_nil, if_neg hL]
      rw [progressList_append]
      apply monoFrom_append h2
      apply monoFrom_of_le (ih (i + 1) (procOp bot total op done cur).2.1
        (procOp bot total op done cur).2.2) h3

theorem pyRound_toNat_le (q : ℚ) (s : Nat) (h0 : 0 ≤ q) (hs : q ≤ (s : ℚ)) :
    (pyRound q).toNat ≤ s := by
  have hf0 : 0 ≤ ⌊q⌋ := Int.floor_nonneg.mpr h0
  have hfs : ⌊q⌋ ≤ (s : ℤ) := by
    have h := Int.floor_le_floor hs
    simpa using h
  have key : (1/2 : ℚ) ≤ q - ⌊q⌋ → ⌊q⌋ < (s : ℤ) := by
    intro hr
    rcases lt_or_eq_of_le hfs with h | h
    · exact h
    · exfalso
      have hle : ((s : ℤ) : ℚ) ≤ q := by
        rw [← h]
        exact Int.floor_le q
      have hq : q = (s : ℚ) := le_antisymm hs (by exact_mod_cast hle)
      have hz : q - (⌊q⌋ : ℚ) = 0 := by
        rw [h, hq]
        push_cast
        ring
      rw [hz] at hr
      linarith
  unfold pyRound
  split_ifs with h1 h2 h3
  · omega
  · have := key (le_of_lt h2)
    omega
  · omega
  · have := key (not_lt.mp h1)
    omega

theorem opcodesFrom_spans {A B : Nat} :
    ∀ (bs : List MBlock) (i j : Nat), ChainIn i j A B bs →
      ∀ oc ∈ opcodesFrom i j bs,
        oc.i1 ≤ oc.i2 ∧ oc.j1 ≤ oc.j2 ∧ oc.j2 ≤ B ∧
          (oc.tag = OpTag.equal → oc.i2 - oc.i1 = oc.j2 - oc.j1) := by
  intro bs
  induction bs with
  | nil => intro i j _ oc hoc; simp [opcodesFrom] at hoc
  | cons blk rest ih =>
    intro i j h oc hoc
    obtain ⟨h1, h2, h3, h4, h5⟩ := h
    simp only [opcodesFrom, List.append_assoc, List.mem_append] at hoc
    rcases hoc with hoc | hoc | hoc
    · by_cases hc1 : i < blk.a ∧ j < blk.b
      · simp only [if_pos hc1, List.mem_singleton] at hoc
        subst hoc
        refine ⟨?_, ?_, ?_, ?_⟩
        · show i ≤ blk.a
          omega
        · show j ≤ blk.b
          omega
        · show blk.b ≤ B
          omega
        · intro hh
          simp at hh
      · by_cases hc2 : i < blk.a
        · simp only [if_neg hc1, if_pos hc2, List.mem_singleton] at hoc
          subst hoc
          refine ⟨?_, ?_, ?_, ?_⟩
          · show i ≤ blk.a
            omega
          · show j ≤ blk.b
            omega
          · show blk.b ≤ B
            omega
          · intro hh
            simp at hh
        · by_cases hc3 : j < blk.b
          · simp only [if_neg hc1, if_neg hc2, if_pos hc3, List.mem_singleton] at hoc
            subst hoc
            refine ⟨?_, ?_, ?_, ?_⟩
            · show i ≤ blk.a
              omega
            · show j ≤ blk.b
              omega
            · show blk.b ≤ B
              omega
            · intro hh
              simp at hh
          · simp only [if_neg hc1, if_neg hc2, if_neg hc3] at hoc
            simp at hoc
    · by_cases hsz : blk.size ≠ 0
      · simp only [if_pos hsz, List.mem_singleton] at hoc
        subst hoc
        refine ⟨?_, ?_, ?_, ?_⟩
        · show blk.a ≤ blk.a + blk.size
          omega
        · show blk.b ≤ blk.b + blk.size
          omega
        · show blk.b + blk.size ≤ B
          omega
        · intro _
          show blk.a + blk.size - blk.a = blk.b + blk.size - blk.b
          omega
      · simp only [if_neg hsz] at hoc
        simp at hoc
    · exact ih (blk.a + blk.size) (blk.b + blk.size) h5 oc hoc

theorem mapScan_le (newLen oldIndex : Nat) :
    ∀ ocs : List Opcode,
      (∀ oc ∈ ocs, oc.i1 ≤ oc.i2 ∧ oc.j1 ≤ oc.j2 ∧ oc.j2 ≤ newLen ∧
        (oc.tag = OpTag.equal → oc.i2 - oc.i1 = oc.j2 - oc.j1)) →
      mapScan newLen oldIndex ocs ≤ newLen := by
  intro ocs
  induction ocs with
  | nil => intro _; exact le_refl _
  | cons oc rest ih =>
    intro h
    obtain ⟨g1, g2, g3, g4⟩ := h oc (List.mem_cons_self _ _)
    have hrest := fun x hx => h x (List.mem_cons_of_mem _ hx)
    by_cases hin : oc.i1 ≤ oldIndex ∧ oldIndex < oc.i2
    · obtain ⟨k, i1, i2, j1, j2⟩ := oc
      cases k with
      | equal =>
        simp only [mapScan, if_pos hin]
        have heq := g4 rfl
        simp only at heq g1 g2 g3 hin ⊢
        omega
      | delete =>
        simp only [mapScan, if_pos hin]
        simp only at g2 g3 ⊢
        omega
      | insert =>
        simp only [mapScan, if_pos hin]
        exact ih hrest
      | replace =>
        simp only [mapScan, if_pos hin]
        simp only at g1 g2 g3
        obtain ⟨hin1, hin2⟩ := hin
        simp only at hin1 hin2
        show j1 + (pyRound (((oldIndex : ℚ) - (i1 : ℚ)) /
            ((max 1 (i2 - i1) : Nat) : ℚ) * ((max 0 (j2 - j1) : Nat) : ℚ))).toNat ≤ newLen
        have hq0 : (0 : ℚ) ≤ ((oldIndex : ℚ) - (i1 : ℚ)) /
            ((max 1 (i2 - i1) : Nat) : ℚ) * ((max 0 (j2 - j1) : Nat) : ℚ) := by
          apply mul_nonneg
          · apply div_nonneg
            · have hcast : (i1 : ℚ) ≤ (oldIndex : ℚ) := by exact_mod_cast hin1
              linarith
            · positivity
          · positivity
        have hfrac : ((oldIndex : ℚ) - (i1 : ℚ)) / ((max 1 (i2 - i1) : Nat) : ℚ) ≤ 1 := by
          rw [div_le_one (by
            have hpos : 1 ≤ max 1 (i2 - i1) := le_max_left _ _
            exact_mod_cast Nat.lt_of_lt_of_le Nat.zero_lt_one hpos)]
          have hle : oldIndex - i1 ≤ max 1 (i2 - i1) := by omega
          have hcast : ((oldIndex - i1 : Nat) : ℚ) ≤ ((max 1 (i2 - i1) : Nat) : ℚ) := by
            exact_mod_cast hle
          have hsub : ((oldIndex - i1 : Nat) : ℚ) = (oldIndex : ℚ) - (i1 : ℚ) :=
            Nat.cast_sub hin1
          linarith [hsub ▸ hcast]
        have hqs : ((oldIndex : ℚ) - (i1 : ℚ)) / ((max 1 (i2 - i1) : Nat) : ℚ) *
            ((max 0 (j2 - j1) : Nat) : ℚ) ≤ ((max 0 (j2 - j1) : Nat) : ℚ) := by
          have hge : (0 : ℚ) ≤ ((max 0 (j2 - j1) : Nat) : ℚ) := by positivity
          nlinarith
        have hb := pyRound_toNat_le _ (max 0 (j2 - j1)) hq0 hqs
        have hmax : max 0 (j2 - j1) = j2 - j1 := by omega
        omega
    · obtain ⟨k, i1, i2, j1, j2⟩ := oc
      cases k <;> simp only [mapScan, if_neg hin] <;> exact ih hrest

theorem mapOldIndexToNewIndex_le (old new : List Char) (oldIndex : Nat) :
    mapOldIndexToNewIndex old new oldIndex ≤ new.length := by
  unfold mapOldIndexToNewIndex
  split
  · exact Nat.zero_le _
  · split
    · exact le_refl _
    · apply mapScan_le
      intro oc hoc
      exact opcodesFrom_spans (getMatchingBlocks old new) 0 0
        (getMatchingBlocks_chain old new) oc hoc

theorem trimGo_skipped_le (startPos : Nat) :
    ∀ (ops : List DiffOp) (cursor skipped : Nat), equalBalanced ops →
      (trimGo startPos ops cursor skipped).2 ≤ skipped + totalWork ops := by
  intro ops
  induction ops with
  | nil => intro cursor skipped _; simp [trimGo, totalWork]
  | cons op rest ih =>
    intro cursor skipped h
    have hrest : equalBalanced rest := fun x hx hk => h x (List.mem_cons_of_mem _ hx) hk
    rw [totalWork_cons]
    by_cases hb1 : cursor + oldLenOf op ≤ startPos
    · simp only [trimGo, if_pos hb1]
      have := ih (cursor + oldLenOf op) (skipped + opWork op) hrest
      omega
    · by_cases hb2 : startPos ≤ cursor
      · simp only [trimGo, if_neg hb1, if_pos hb2]
        omega
      · obtain ⟨k, oldT, newT⟩ := op
        cases k with
        | equal =>
          simp only [trimGo, if_neg hb1, if_neg hb2]
          have hbal := h (DiffOp.mk DiffKind.equal oldT newT)
            (List.mem_cons_self _ _) rfl
          simp only at hbal
          simp [oldLenOf] at hb1
          simp only [opWork]
          omega
        | insert =>
          exfalso
          simp [oldLenOf] at hb1
          omega
        | delete =>
          simp only [trimGo, if_neg hb1, if_neg hb2]
          simp [oldLenOf] at hb1
          simp only [opWork]
          omega
        | replace =>
          simp only [trimGo, if_neg hb1, if_neg hb2]
          simp [oldLenOf] at hb1
          simp only [opWork]
          have hmap := mapOldIndexToNewIndex_le oldT newT (startPos - cursor)
          omega

theorem trimOpsForStart_skipped_le (ops : List DiffOp) (s : Nat)
    (h : equalBalanced ops) :
    (trimOpsForStart ops s).2 ≤ totalWork ops := by
  unfold trimOpsForStart
  split
  · exact Nat.zero_le _
  · simpa using trimGo_skipped_le s ops 0 0 h

/-- Claim C4 (amended): in a Replace-mode session with no jump requests
(over any script whose Equal ops carry equally long old and new text, as
all diff-engine scripts do), the emitted progress sequence is
monotonically non-decreasing; a jump request may lower it to the
recomputed `skippedWork` baseline, which for a backward jump is smaller
than progress already reported. -/
theorem C4_progress_monotone_no_jump (ops : List DiffOp) (s : Nat) (bot : Bool)
    (hwf : equalBalanced ops) :
    List.Chain' (fun a b => a ≤ b) (progressList (runReplace ops s bot []).1) := by
  have htot1 : 0 < max (totalWork ops) 1 := by omega
  have hskip : (trimOpsForStart ops (min s (totalOldLen ops))).2 ≤
      max (totalWork ops) 1 :=
    le_trans (trimOpsForStart_skipped_le ops _ hwf) (le_max_left _ _)
  simp only [runReplace, runLoop, runPass]
  rcases hL : lastChangeIdx (trimOpsForStart ops (min s (totalOldLen ops))).1 with _ | L
  · simp only [progressList_append, progressList, List.filterMap, List.nil_append]
    have hle : (trimOpsForStart ops (min s (totalOldLen ops))).2 * 100 /
        max (totalWork ops) 1 ≤ 100 := by
      calc (trimOpsForStart ops (min s (totalOldLen ops))).2 * 100 /
          max (totalWork ops) 1 ≤
          max (totalWork ops) 1 * 100 / max (totalWork ops) 1 :=
            Nat.div_le_div_right (by omega)
        _ = 100 := Nat.mul_div_cancel_left _ htot1
    exact List.Chain'.cons hle (by simp)
  · rw [procOps_sched_nil_none bot (max (totalWork ops) 1) L]
    simp only [progressList_append, progressList, List.filterMap, List.nil_append]
    exact chain'_of_monoFrom
      (procOps_mono bot (max (totalWork ops) 1) L
        (trimOpsForStart ops (min s (totalOldLen ops))).1 0
        (trimOpsForStart ops (min s (totalOldLen ops))).2 (min s (totalOldLen ops)))

theorem C4_progress_monotone_no_jump_witness :
    List.Chain' (fun a b => a ≤ b)
      (progressList (runReplace (computeDiff "ab cd".toList "xy ce".toList)
        0 true []).1) :=
  C4_progress_monotone_no_jump (computeDiff "ab cd".toList "xy ce".toList) 0 true
    (by
      have hceq : computeDiff "ab cd".toList "xy ce".toList =
          [DiffOp.mk DiffKind.replace "ab".toList "xy".toList,
            DiffOp.mk DiffKind.equal " ".toList " ".toList,
            DiffOp.mk DiffKind.replace "cd".toList "ce".toList] := by decide
      rw [hceq]
      intro op hop hk
      simp only [List.mem_cons, List.not_mem_nil, or_false] at hop
      rcases hop with rfl | rfl | rfl
      · simp at hk
      · rfl
      · simp at hk)

/-! ### Typo injection and self-correction (C9) -/

theorem applyCalls_append (l1 l2 : List Inj) (st : List Char × Bool) :
    applyCalls (l1 ++ l2) st = applyCalls l2 (applyCalls l1 st) := by
  simp [applyCalls, List.foldl_append]

theorem typeChar_apply (c : Char) (buf : List Char) :
    applyCalls (typeCharCalls c) (buf, false) = (buf ++ [c], false) := by
  by_cases h1 : c = '"'
  · subst h1
    simp [typeCharCalls, applyCalls, applyInj]
  · by_cases h2 : c = '\''
    · subst h2
      simp [typeCharCalls, applyCalls, applyInj]
    · by_cases h3 : c = '\n'
      · subst h3
        simp [typeCharCalls, applyCalls, applyInj]
      · by_cases h4 : c = '\t'
        · subst h4
          simp [typeCharCalls, applyCalls, applyInj]
        · simp [typeCharCalls, h1, h2, h3, h4, applyCalls, applyInj]

theorem flatMap_typeChar_apply :
    ∀ (cs : List Char) (buf : List Char),
      applyCalls (cs.flatMap typeCharCalls) (buf, false) = (buf ++ cs, false) := by
  intro cs
  induction cs with
  | nil => intro buf; simp [applyCalls]
  | cons c cs ih =>
    intro buf
    rw [List.flatMap_cons, applyCalls_append, typeChar_apply, ih]
    simp

theorem backspaces_apply :
    ∀ (n : Nat) (buf : List Char) (sh : Bool),
      applyCalls (List.replicate n (Inj.press "backspace" 1)) (buf, sh) =
        (dropLastN n buf, sh) := by
  intro n
  induction n with
  | zero => intro buf sh; rfl
  | succ n ih =>
    intro buf sh
    rw [List.replicate_succ]
    have hstep : applyInj (buf, sh) (Inj.press "backspace" 1) = (buf.dropLast, sh) := by
      simp [applyInj, dropLastN]
    show applyCalls _ (applyInj (buf, sh) (Inj.press "backspace" 1)) = _
    rw [hstep, ih]
    rfl

theorem dropLastN_eq_nil :
    ∀ (n : Nat) (buf : List Char), buf.length ≤ n → dropLastN n buf = [] := by
  intro n
  induction n with
  | zero =>
    intro buf h
    cases buf with
    | nil => rfl
    | cons a l => simp at h
  | succ n ih =>
    intro buf h
    show dropLastN n buf.dropLast = []
    apply ih
    simp only [List.length_dropLast]
    omega

theorem injCalls_append (e1 e2 : List Ev) :
    injCalls (e1 ++ e2) = injCalls e1 ++ injCalls e2 := by
  simp [injCalls, List.filterMap_append]

theorem injCalls_map_inj (l : List Inj) : injCalls (l.map Ev.inj) = l := by
  induction l with
  | nil => rfl
  | cons c cs ih => simpa [injCalls] using ih

theorem injCalls_replicate (n : Nat) (c : Inj) :
    injCalls (List.replicate n (Ev.inj c)) = List.replicate n c := by
  induction n with
  | zero => rfl
  | succ n ih =>
    rw [List.replicate_succ, List.replicate_succ]
    simpa [injCalls] using ih

theorem injCalls_flatMap_typeChar (cs : List Char) :
    injCalls (cs.flatMap (fun c => (typeCharCalls c).map Ev.inj)) =
      cs.flatMap typeCharCalls := by
  induction cs with
  | nil => rfl
  | cons c cs ih =>
    rw [List.flatMap_cons, List.flatMap_cons, injCalls_append, injCalls_map_inj, ih]

theorem injCalls_retypeLoop (total : Nat) :
    ∀ (cs : List Char) (j done : Nat),
      injCalls (retypeLoop total cs j done) = cs.flatMap typeCharCalls := by
  intro cs
  induction cs with
  | nil => intro j done; rfl
  | cons c cs ih =>
    intro j done
    simp only [retypeLoop, List.flatMap_cons]
    rw [injCalls_append, injCalls_append, injCalls_map_inj, ih]
    simp [injCalls]

theorem backspaceCount_append (l1 l2 : List Inj) :
    backspaceCount (l1 ++ l2) = backspaceCount l1 + backspaceCount l2 := by
  simp [backspaceCount]

theorem backspaceCount_typeChar (c : Char) : backspaceCount (typeCharCalls c) = 0 := by
  by_cases h1 : c = '"'
  · subst h1
    simp [typeCharCalls, backspaceCount]
  · by_cases h2 : c = '\''
    · subst h2
      simp [typeCharCalls, backspaceCount]
    · by_cases h3 : c = '\n'
      · subst h3
        simp [typeCharCalls, backspaceCount]
      · by_cases h4 : c = '\t'
        · subst h4
          simp [typeCharCalls, backspaceCount]
        · simp [typeCharCalls, h1, h2, h3, h4, backspaceCount]

theorem backspaceCount_flatMap (cs : List Char) :
    backspaceCount (cs.flatMap typeCharCalls) = 0 := by
  induction cs with
  | nil => rfl
  | cons c cs ih =>
    rw [List.flatMap_cons, backspaceCount_append, backspaceCount_typeChar, ih]

theorem backspaceCount_replicate (n : Nat) :
    backspaceCount (List.replicate n (Inj.press "backspace" 1)) = n := by
  induction n with
  | zero => rfl
  | succ n ih =>
    rw [List.replicate_succ]
    have hcons : backspaceCount (Inj.press "backspace" 1 ::
        List.replicate n (Inj.press "backspace" 1)) =
        1 + backspaceCount (List.replicate n (Inj.press "backspace" 1)) := by
      simp [backspaceCount]
    rw [hcons, ih]
    omega

theorem wordEndFrom_bounds (text : List Char) (idx : Nat)
    (hidx : idx < text.length) (hws : wsChar (text.getD idx ' ') = false) :
    idx < wordEndFrom text idx ∧ wordEndFrom text idx ≤ text.length := by
  have hdrop : text.drop idx = text.getD idx ' ' :: text.drop (idx + 1) := by
    rw [List.getD_eq_getElem?_getD]
    rw [List.getElem?_eq_getElem hidx]
    simpa using List.drop_eq_getElem_cons hidx
  constructor
  · unfold wordEndFrom
    rw [hdrop]
    rw [List.takeWhile_cons_of_pos
      (by show (!(wsChar (text.getD idx ' '))) = true; rw [hws]; rfl)]
    simp
  · unfold wordEndFrom
    have hlen : ((text.drop idx).takeWhile (fun c => !(wsChar c))).length ≤
        (text.drop idx).length := (List.takeWhile_sublist _).length_le
    simp only [List.length_drop] at hlen
    omega

/-- Claim C9: in Fresh Human mode, a typo triggered at position `i` of a
word whose maximal non-whitespace run ends at `e` (with no stop request
during the correction) types one wrong neighboring-key character, the
remaining `e−i−1` word characters, then exactly `(e−i−1)+1 = e−i`
backspace presses, then retypes `text[i:e]`, so the net typed text for
the word suffix is exactly `text[i:e]`. -/
theorem C9_typo_correction (text : List Char) (idx r done total : Nat)
    (hidx : idx < text.length) (hws : wsChar (text.getD idx ' ') = false) :
    backspaceCount (injCalls (typoBranch text idx (text.getD idx ' ')
        (nearbyKey (text.getD idx ' ') r) done total)) =
      wordEndFrom text idx - idx ∧
      (applyCalls (injCalls (typoBranch text idx (text.getD idx ' ')
          (nearbyKey (text.getD idx ' ') r) done total)) ([], false)).1 =
        (text.drop idx).take (wordEndFrom text idx - idx) := by
  obtain ⟨hlt, hle⟩ := wordEndFrom_bounds text idx hidx hws
  have hinj : injCalls (typoBranch text idx (text.getD idx ' ')
      (nearbyKey (text.getD idx ' ') r) done total) =
      typeCharCalls (nearbyKey (text.getD idx ' ') r) ++
        (((text.drop (idx + 1)).take (wordEndFrom text idx - (idx + 1))).flatMap
          typeCharCalls ++
        (List.replicate ((wordEndFrom text idx - (idx + 1)) + 1)
          (Inj.press "backspace" 1) ++
        ((text.drop idx).take (wordEndFrom text idx - idx)).flatMap
          typeCharCalls)) := by
    simp only [typoBranch, List.append_assoc]
    rw [injCalls_append, injCalls_append, injCalls_append, injCalls_append]
    rw [injCalls_map_inj, injCalls_replicate, injCalls_flatMap_typeChar,
      injCalls_retypeLoop]
    simp [injCalls]
  have hmidlen : ((text.drop (idx + 1)).take
      (wordEndFrom text idx - (idx + 1))).length = wordEndFrom text idx - (idx + 1) := by
    rw [List.length_take, List.length_drop]
    omega
  constructor
  · rw [hinj, backspaceCount_append, backspaceCount_append, backspaceCount_append,
      backspaceCount_typeChar, backspaceCount_flatMap, backspaceCount_flatMap,
      backspaceCount_replicate]
    omega
  · rw [hinj]
    rw [applyCalls_append, applyCalls_append, applyCalls_append]
    rw [typeChar_apply]
    rw [show (([] : List Char) ++ [nearbyKey (text.getD idx ' ') r]) =
      [nearbyKey (text.getD idx ' ') r] from by simp]
    rw [flatMap_typeChar_apply, backspaces_apply]
    rw [dropLastN_eq_nil _ _ (by
      simp only [List.length_cons, List.length_append, hmidlen]
      simp
      omega)]
    rw [flatMap_typeChar_apply]
    simp

theorem C9_typo_correction_witness :
    backspaceCount (injCalls (typoBranch "hello".toList 1 ("hello".toList.getD 1 ' ')
        (nearbyKey ("hello".toList.getD 1 ' ') 0) 0 10)) =
      wordEndFrom "hello".toList 1 - 1 ∧
      (applyCalls (injCalls (typoBranch "hello".toList 1 ("hello".toList.getD 1 ' ')
          (nearbyKey ("hello".toList.getD 1 ' ') 0) 0 10)) ([], false)).1 =
        ("hello".toList.drop 1).take (wordEndFrom "hello".toList 1 - 1) :=
  C9_typo_correction "hello".toList 1 0 0 10 (by decide) (by decide)

end HTE